import Mathlib

/-!
Verification development for the Ge-Brain chat client core: the message-tree
store, thread projector, turn orchestrator dispatch logic, branch navigator,
and the OpenAI-compatible stream parser, shallowly embedded from
src/services/geminiService.ts and src/components/ChatInterface.tsx.

JavaScript values are modelled as follows: optional fields become Option,
JSON values become the inductive JVal, `Record<string, Message>` becomes an
insertion-ordered association list, and JavaScript truthiness checks on
strings and optional values are translated explicitly (empty string and
absent are falsy).  The platform built-ins JSON.parse and the sandboxed
execution capability (`new Function`) are abstracted as function parameters;
JSON.stringify is modelled concretely.
-/

namespace GeBrain

/-- JSON-representable values (model of dynamic JS values flowing through
tool arguments and results). -/
inductive JVal where
  | null : JVal
  | bool (b : Bool) : JVal
  | num (n : Int) : JVal
  | str (s : String) : JVal
  | arr (elems : List JVal) : JVal
  | obj (fields : List (String × JVal)) : JVal

/-- ToolCall from src/types.ts: { id, name, args }. -/
structure ToolCall where
  id : String
  name : String
  args : JVal

/-- An entry of Message.toolResults from src/types.ts:
{ callId, result, isError? }. -/
structure ToolResult where
  callId : String
  result : String
  isError : Option Bool := none

/-- Message.role from src/types.ts. -/
inductive Role where
  | user : Role
  | model : Role
  | tool : Role
deriving DecidableEq

/-- Message from src/types.ts: a node of the conversation DAG. -/
structure Message where
  id : String
  role : Role
  content : Option String := none
  toolCalls : Option (List ToolCall) := none
  toolResults : Option (List ToolResult) := none
  timestamp : Int := 0
  parentId : Option String
  childrenIds : List String

/-- The flat mapping Record<string, Message>, as an insertion-ordered
association list (JS object property order). -/
abbrev MsgMap := List (String × Message)

/-- messageMap[k] lookup. -/
def lookup (map : MsgMap) (k : String) : Option Message :=
  (List.find? (fun p => p.1 == k) map).map (fun p => p.2)

/-- Whether k is a key of the mapping. -/
def keyPresent (map : MsgMap) (k : String) : Bool :=
  List.any map (fun p => p.1 == k)

/-- The update { ...map, [k]: v }: replaces the value at an existing key in
place, otherwise appends the new key at the end (JS object spread keeps
property order). -/
def setKey (map : MsgMap) (k : String) (v : Message) : MsgMap :=
  if keyPresent map k then
    List.map (fun p => if p.1 == k then (k, v) else p) map
  else
    map ++ [(k, v)]

/-- The list of keys of the mapping. -/
def keys (map : MsgMap) : List String :=
  List.map (fun p => p.1) map

/-- Number of entries of the mapping. -/
def size (map : MsgMap) : Nat :=
  List.length map

/-! ## Thread projector (src/services/geminiService.ts, getThread) -/

/-- The while-loop of getThread: follow parentId links, unshifting each
found node.  The loop condition `while (currentId)` is falsy for both null
and the empty string.  The JS loop has no fuel; it terminates within
`size map` successful lookups whenever parent links are acyclic, so callers
pass `size map + 1` fuel, which is exhausted only on inputs where the JS
loop diverges. -/
def getThreadLoop (map : MsgMap) : Nat → Option String → List Message → List Message
  | 0, _, acc => acc
  | _ + 1, none, acc => acc
  | fuel + 1, some cid, acc =>
    if cid == "" then acc
    else
      match lookup map cid with
      | none => acc
      | some msg => getThreadLoop map fuel msg.parentId (msg :: acc)

/-- getThread from src/services/geminiService.ts: `if (!headId ||
!messageMap[headId]) return []` then the walk to a root, root first. -/
def getThread (map : MsgMap) (headId : Option String) : List Message :=
  match headId with
  | none => []
  | some h =>
    if h == "" then []
    else
      match lookup map h with
      | none => []
      | some _ => getThreadLoop map (size map + 1) (some h) []

/-! ## Message tree store (src/components/ChatInterface.tsx, appendToTree) -/

/-- appendToTree from src/components/ChatInterface.tsx: insert the node,
then, if `parentId` is truthy and present in the updated map, append the new
id to that parent's childrenIds; otherwise leave the parent link off. -/
def appendToTree (parentId : Option String) (newMessage : Message) (updatesMap : MsgMap) : MsgMap :=
  let updatedMap := setKey updatesMap newMessage.id newMessage
  match parentId with
  | none => updatedMap
  | some pid =>
    if pid == "" then updatedMap
    else
      match lookup updatedMap pid with
      | none => updatedMap
      | some parent =>
        setKey updatedMap pid
          { parent with childrenIds := parent.childrenIds ++ [newMessage.id] }

/-- Claim C7's first invariant: every node's parentId is null or a key of
the mapping. -/
def parentLinkOk (map : MsgMap) : Bool :=
  List.all map (fun p =>
    match p.2.parentId with
    | none => true
    | some q => keyPresent map q)

/-- Claim C7's second invariant: every id listed in some node's childrenIds
names a node whose parentId is that node's id. -/
def childLinkOk (map : MsgMap) : Bool :=
  List.all map (fun p =>
    List.all p.2.childrenIds (fun cid =>
      match lookup map cid with
      | none => false
      | some c => c.parentId == some p.1))

/-- Bidirectional consistency of the tree mapping (claim C7). -/
def bidirConsistent (map : MsgMap) : Bool :=
  parentLinkOk map && childLinkOk map

/-- A sequence of appendToTree operations applied from a given mapping:
each operation is the (parentId, newMessage) argument pair. -/
def applyAppends (ops : List (Option String × Message)) (map : MsgMap) : MsgMap :=
  List.foldl (fun m op => appendToTree op.1 op.2 m) map ops

/-! ## Config types (src/types.ts) -/

/-- FunctionDeclaration as used by the app: name, description, parameter
schema. -/
structure FunctionDecl where
  name : String
  description : String
  parameters : JVal

/-- UserTool from src/types.ts: implementation and autoExecute are optional
fields. -/
structure UserTool where
  id : String
  definition : FunctionDecl
  active : Bool
  implementation : Option String := none
  autoExecute : Option Bool := none

/-- VirtualMemory from src/types.ts. -/
structure VirtualMemory where
  id : String
  name : String
  content : String
  active : Bool

/-- ModelConfig from src/types.ts.  The provider is kept as a raw string:
the TypeScript union type erases at runtime and the code only ever compares
it against the literal "openai". -/
structure ModelConfig where
  id : String
  name : String
  provider : String
  modelId : String
  apiKey : String
  baseUrl : Option String := none

/-- AppConfig from src/types.ts. -/
structure AppConfig where
  activeModelId : String
  models : List ModelConfig
  systemPrompt : String
  memories : List VirtualMemory
  tools : List UserTool

/-- JS truthiness of an optional boolean field (`toolConfig.autoExecute`). -/
def optBoolTruthy : Option Bool → Bool
  | some true => true
  | _ => false

/-- JS truthiness of an optional string field (`toolConfig.implementation`):
absent and the empty string are falsy. -/
def optStrTruthy : Option String → Bool
  | some s => !(s == "")
  | none => false

/-! ## JSON serialization (model of JSON.stringify on JSON-representable
values, used for tool results) -/

/-- Escaping of a character inside a JSON string literal. -/
def escapeChar (c : Char) : String :=
  if c = '"' then "\\\""
  else if c = '\\' then "\\\\"
  else if c = '\n' then "\\n"
  else if c = '\r' then "\\r"
  else if c = '\t' then "\\t"
  else String.singleton c

/-- Escaping of a JSON string body. -/
def escapeString (s : String) : String :=
  String.join (List.map escapeChar s.toList)

mutual

/-- JSON.stringify on JSON-representable values. -/
def jsonStringify : JVal → String
  | .null => "null"
  | .bool b => if b then "true" else "false"
  | .num n => toString n
  | .str s => "\"" ++ escapeString s ++ "\""
  | .arr l => "[" ++ jsonItems l ++ "]"
  | .obj l => "\x7b" ++ jsonFields l ++ "\x7d"

/-- Comma-joined serialization of array elements. -/
def jsonItems : List JVal → String
  | [] => ""
  | [x] => jsonStringify x
  | x :: y :: rest => jsonStringify x ++ "," ++ jsonItems (y :: rest)

/-- Comma-joined serialization of object fields. -/
def jsonFields : List (String × JVal) → String
  | [] => ""
  | [(k, v)] => "\"" ++ escapeString k ++ "\":" ++ jsonStringify v
  | (k, v) :: f :: rest =>
    "\"" ++ escapeString k ++ "\":" ++ jsonStringify v ++ "," ++ jsonFields (f :: rest)

end

/-! ## Turn orchestrator: stream folding
(src/components/ChatInterface.tsx, processConversationTurn, stream loop) -/

/-- StreamChunk from src/services/geminiService.ts: optional text delta and
optional full snapshot of the tool calls so far. -/
structure StreamChunk where
  textDelta : Option String := none
  toolCalls : Option (List ToolCall) := none

/-- One iteration of the `for await (const chunk of stream)` loop in
processConversationTurn: append the text delta if truthy, replace the
tool-call view if the chunk carries a snapshot. -/
def foldChunk (st : String × List ToolCall) (chunk : StreamChunk) : String × List ToolCall :=
  let text :=
    match chunk.textDelta with
    | some t => if t == "" then st.1 else st.1 ++ t
    | none => st.1
  let calls :=
    match chunk.toolCalls with
    | some tcs => tcs
    | none => st.2
  (text, calls)

/-- The accumulated (accumulatedText, currentToolCalls) state after
consuming a whole chunk sequence, starting from ('', []). -/
def accumulateStream (chunks : List StreamChunk) : String × List ToolCall :=
  List.foldl foldChunk ("", []) chunks

/-- The toolCalls field written to the pending model node after the last
chunk: `currentToolCalls.length > 0 ? currentToolCalls : undefined`. -/
def storedToolCalls (chunks : List StreamChunk) : Option (List ToolCall) :=
  let calls := (accumulateStream chunks).2
  if calls.length > 0 then some calls else none

/-- The last non-absent tool-call snapshot of a chunk sequence (the claim's
reference point: pure replacement keeps exactly the final snapshot). -/
def lastNonAbsentSnapshot : List StreamChunk → Option (List ToolCall)
  | [] => none
  | c :: rest =>
    match lastNonAbsentSnapshot rest with
    | some s => some s
    | none => c.toolCalls

/-! ## Turn orchestrator: auto-execution dispatch
(src/components/ChatInterface.tsx, processConversationTurn, stream end) -/

/-- The executionQueue computation: for each finalized tool call, look up
the first registered tool of that name; keep the call iff the tool was
found with a truthy autoExecute and a truthy (non-empty) implementation.
This is the code's auto-executable classification. -/
def execQueue (tools : List UserTool) (toolCalls : List ToolCall) : List (ToolCall × UserTool) :=
  List.filterMap
    (fun tc =>
      match List.find? (fun t => t.definition.name == tc.name) tools with
      | some toolConfig =>
        if optBoolTruthy toolConfig.autoExecute && optStrTruthy toolConfig.implementation then
          some (tc, toolConfig)
        else none
      | none => none)
    toolCalls

/-- Outcome of the external execution capability (`new Function(...)`,
awaited): a returned JSON-representable value or a thrown failure whose
message is captured. -/
inductive ExecOutcome where
  | ok (v : JVal) : ExecOutcome
  | err (msg : String) : ExecOutcome

/-- The sequential for-loop over the executionQueue: run each call's tool,
JSON-stringify the returned value on success, or serialize
\x7b error: e.message \x7d on a thrown failure, and push one result per
item either way. -/
def runQueue (exec : String → JVal → ExecOutcome) : List (ToolCall × UserTool) → List ToolResult
  | [] => []
  | item :: rest =>
    let result :=
      match exec (item.2.implementation.getD "") item.1.args with
      | .ok output => jsonStringify output
      | .err m => jsonStringify (.obj [("error", .str m)])
    { callId := item.1.id, result := result } :: runQueue exec rest

/-- The observable outcome of the stream-end dispatch: the updated mapping,
the updated head, and whether a new turn is started automatically. -/
structure DispatchOutcome where
  map : MsgMap
  head : String
  autoResults : List ToolResult
  continueTurn : Bool

/-- Stream-end tool dispatch of processConversationTurn: read the finalized
model node at the current head, build the executionQueue, run it, append a
single tool node carrying all produced results (advancing head to it), and
decide automatic continuation by comparing the result count with the call
count.  toolMsgId and toolTimestamp stand for crypto.randomUUID() and
Date.now(). -/
def dispatchAfterStream (tools : List UserTool) (exec : String → JVal → ExecOutcome)
    (toolMsgId : String) (toolTimestamp : Int) (map : MsgMap) (head : String) : DispatchOutcome :=
  match lookup map head with
  | none => ⟨map, head, [], false⟩
  | some finalMsg =>
    match finalMsg.toolCalls with
    | none => ⟨map, head, [], false⟩
    | some calls =>
      if calls.length > 0 then
        let queue := execQueue tools calls
        if queue.length > 0 then
          let results := runQueue exec queue
          if results.length > 0 then
            let toolMsg : Message :=
              { id := toolMsgId
                role := .tool
                toolResults := some results
                timestamp := toolTimestamp
                parentId := some head
                childrenIds := [] }
            let map2 := appendToTree (some head) toolMsg map
            ⟨map2, toolMsgId, results, results.length == calls.length⟩
          else ⟨map, head, results, false⟩
        else ⟨map, head, [], false⟩
      else ⟨map, head, [], false⟩

/-! ## Turn orchestrator: error path
(src/components/ChatInterface.tsx, processConversationTurn, catch block;
src/services/geminiService.ts, sendMessageStream preconditions) -/

/-- The error string written into the pending model node by the catch
block: backtick-template "Error: " followed by error.message, falling back
to 'Unknown error occurred' when the message is absent or empty (JS `||`).
The thrown message is modelled as Option String (none = no message). -/
def errorContent (msg : Option String) : String :=
  "Error: " ++
    (match msg with
     | some m => if m == "" then "Unknown error occurred" else m
     | none => "Unknown error occurred")

/-- config.models.find(m => m.id === config.activeModelId). -/
def findActiveModel (config : AppConfig) : Option ModelConfig :=
  List.find? (fun m => m.id == config.activeModelId) config.models

/-- Which provider streamer sendMessageStream dispatches to. -/
inductive Route where
  | openai : Route
  | gemini : Route
deriving DecidableEq

/-- The precondition checks and provider dispatch of sendMessageStream:
throw if there is no active model, throw if its apiKey is falsy, then pick
the OpenAI streamer exactly when provider === 'openai', the Gemini streamer
otherwise. -/
def sendMessageStreamRoute (config : AppConfig) : Except String Route :=
  match findActiveModel config with
  | none => .error "No active model selected."
  | some activeModel =>
    if activeModel.apiKey == "" then .error "API Key is missing for the selected model."
    else if activeModel.provider == "openai" then .ok .openai
    else .ok .gemini

/-- What a single streaming attempt delivers to the orchestrator's
try-block: either a complete chunk sequence, or the chunks processed before
a failure together with the thrown error's optional message (errors from
sendMessageStream itself arrive with an empty chunk prefix). -/
inductive StreamResult where
  | success (chunks : List StreamChunk) : StreamResult
  | failure (chunks : List StreamChunk) (message : Option String) : StreamResult

/-- The pending model node as processConversationTurn leaves it: the
initial placeholder (empty content, empty toolCalls list), updated on every
chunk with the accumulated text and snapshot, and overwritten with the
error string by the catch block on failure. -/
def runTurnNode (modelMsgId : String) (startHeadId : String) (timestamp : Int)
    (res : StreamResult) : Message :=
  let initial : Message :=
    { id := modelMsgId
      role := .model
      content := some ""
      toolCalls := some []
      timestamp := timestamp
      parentId := some startHeadId
      childrenIds := [] }
  let afterChunks : List StreamChunk → Message := fun chunks =>
    match chunks with
    | [] => initial
    | _ =>
      { initial with
        content := some (accumulateStream chunks).1
        toolCalls := storedToolCalls chunks }
  match res with
  | .success chunks => afterChunks chunks
  | .failure chunks msg => { afterChunks chunks with content := some (errorContent msg) }

/-! ## Branch navigator (src/components/ChatInterface.tsx, navigateBranch) -/

/-- Navigation direction. -/
inductive Direction where
  | prev : Direction
  | next : Direction
deriving DecidableEq

/-- The descent loop of navigateBranch: follow the last child at every
level until a missing node or a leaf.  Fuel models the unbounded JS while
loop, which terminates within `size map` steps on acyclic maps. -/
def descendLastLoop (map : MsgMap) : Nat → String → String
  | 0, ptr => ptr
  | fuel + 1, ptr =>
    match lookup map ptr with
    | none => ptr
    | some node =>
      match node.childrenIds.getLast? with
      | none => ptr
      | some lastChild => descendLastLoop map fuel lastChild

/-- The clamped adjacent index: currentIndex ± 1, clamped into
[0, siblingCount - 1] with no wraparound. -/
def clampedIndex (direction : Direction) (currentIndex : Nat) (siblingCount : Nat) : Nat :=
  let nextIndex : Int :=
    match direction with
    | .prev => (currentIndex : Int) - 1
    | .next => (currentIndex : Int) + 1
  let lo : Int := if nextIndex < 0 then 0 else nextIndex
  let hi : Int := if lo ≥ (siblingCount : Int) then (siblingCount : Int) - 1 else lo
  hi.toNat

/-- navigateBranch from src/components/ChatInterface.tsx.  Returns none
where the source early-returns without updating state (missing node, falsy
parentId, missing parent, node not among the parent's childrenIds), and
some newHeadId where the source calls updateState(messageMap, ptr). -/
def navigateBranch (map : MsgMap) (msgId : String) (direction : Direction) : Option String :=
  match lookup map msgId with
  | none => none
  | some msg =>
    match msg.parentId with
    | none => none
    | some pid =>
      if pid == "" then none
      else
        match lookup map pid with
        | none => none
        | some parent =>
          match List.findIdx? (fun cid => cid == msgId) parent.childrenIds with
          | none => none
          | some currentIndex =>
            let nextIndex := clampedIndex direction currentIndex parent.childrenIds.length
            let nextChildId := parent.childrenIds.getD nextIndex ""
            some (descendLastLoop map (size map + 1) nextChildId)

/-! ## Provider adapters: request construction
(src/services/geminiService.ts, buildSystemInstruction,
convertHistoryToGemini, convertHistoryToOpenAI, mapToolsToOpenAI,
getRawRequest) -/

/-- buildSystemInstruction: the system prompt, plus the active memories
rendered as Memory blocks when any exist. -/
def buildSystemInstruction (config : AppConfig) : String :=
  let activeMemories :=
    String.intercalate "\n\n"
      (List.map
        (fun m => "<Memory name=\"" ++ m.name ++ "\">\n" ++ m.content ++ "\n</Memory>")
        (List.filter (fun m => m.active) config.memories))
  if activeMemories == "" then config.systemPrompt
  else config.systemPrompt ++ "\n\n=== VIRTUAL MEMORY CONTEXT ===\n" ++ activeMemories

/-- A Gemini content part: text, function call, or function response. -/
inductive GPart where
  | text (t : String) : GPart
  | functionCall (name : String) (args : JVal) : GPart
  | functionResponse (id : String) (name : String) (result : JVal) : GPart

/-- A Gemini Content entry: role string plus parts. -/
structure GContent where
  role : String
  parts : List GPart

/-- convertHistoryToGemini.  jsonParse abstracts the JSON.parse built-in
(none = parse throws); a stored tool result that fails to parse falls back
to the raw string. -/
def convertHistoryToGemini (jsonParse : String → Option JVal) (messages : List Message) : List GContent :=
  List.map
    (fun msg =>
      let parts : List GPart :=
        match msg.role with
        | .model =>
          (match msg.content with
           | some c => if c == "" then [] else [GPart.text c]
           | none => []) ++
          (match msg.toolCalls with
           | some tcs => List.map (fun tc => GPart.functionCall tc.name tc.args) tcs
           | none => [])
        | .user => [GPart.text (msg.content.getD "")]
        | .tool =>
          match msg.toolResults with
          | some trs =>
            List.map
              (fun tr =>
                let parsedResult :=
                  match jsonParse tr.result with
                  | some v => v
                  | none => JVal.str tr.result
                GPart.functionResponse tr.callId tr.callId parsedResult)
              trs
          | none => []
      { role :=
          match msg.role with
          | .tool => "tool"
          | .model => "model"
          | .user => "user"
        parts := parts })
    messages

/-- A serialized tool call inside an OpenAI assistant message. -/
structure OAIToolCallOut where
  id : String
  name : String
  arguments : String

/-- An OpenAI chat message as built by convertHistoryToOpenAI.  For
assistant messages, content = none models the explicit null/absent content
required when only tool calls are present. -/
inductive OAIMessage where
  | system (content : String) : OAIMessage
  | user (content : String) : OAIMessage
  | assistant (content : Option String) (tool_calls : Option (List OAIToolCallOut)) : OAIMessage
  | toolMsg (tool_call_id : String) (content : String) : OAIMessage

/-- convertHistoryToOpenAI: a leading system message, then one message per
history node, except tool nodes which expand to one message per result. -/
def convertHistoryToOpenAI (messages : List Message) (systemInstruction : String) : List OAIMessage :=
  OAIMessage.system systemInstruction ::
    List.foldr
      (fun m rest =>
        match m.role with
        | .user => OAIMessage.user (m.content.getD "") :: rest
        | .model =>
          let contentField : Option String :=
            match m.content with
            | some c => if c == "" then none else some c
            | none => none
          let callsField : Option (List OAIToolCallOut) :=
            match m.toolCalls with
            | some tcs =>
              if tcs.length > 0 then
                some (List.map
                  (fun tc => { id := tc.id, name := tc.name, arguments := jsonStringify tc.args })
                  tcs)
              else none
            | none => none
          OAIMessage.assistant contentField callsField :: rest
        | .tool =>
          match m.toolResults with
          | some trs =>
            List.map (fun tr => OAIMessage.toolMsg tr.callId tr.result) trs ++ rest
          | none => rest)
      [] messages

/-- mapToolsToOpenAI: wrap each declaration in the OpenAI function-tool
shape (passed through verbatim). -/
def mapToolsToOpenAI (tools : List FunctionDecl) : List FunctionDecl :=
  tools

/-- The request value produced by getRawRequest: one shape per provider
family. -/
inductive RawRequest where
  | openai (model : String) (messages : List OAIMessage) (tools : Option (List FunctionDecl)) : RawRequest
  | gemini (model : String) (contents : List GContent) (systemInstruction : String)
      (tools : Option (List FunctionDecl)) : RawRequest

/-- getRawRequest from src/services/geminiService.ts: throw if no active
model, then build the OpenAI body when provider === 'openai' and the Gemini
body for every other provider value; the tools field is omitted when no
registered tool is active. -/
def getRawRequest (jsonParse : String → Option JVal) (config : AppConfig)
    (messages : List Message) : Except String RawRequest :=
  match findActiveModel config with
  | none => .error "No active model selected."
  | some activeModel =>
    let systemInstruction := buildSystemInstruction config
    let activeTools :=
      List.map (fun t => t.definition) (List.filter (fun t => t.active) config.tools)
    if activeModel.provider == "openai" then
      .ok (.openai activeModel.modelId
        (convertHistoryToOpenAI messages systemInstruction)
        (if activeTools.length > 0 then some (mapToolsToOpenAI activeTools) else none))
    else
      .ok (.gemini activeModel.modelId
        (convertHistoryToGemini jsonParse messages)
        systemInstruction
        (if activeTools.length > 0 then some activeTools else none))

/-! ## OpenAI-compatible stream parser
(src/services/geminiService.ts, streamOpenAI, read loop) -/

/-- Property access j[k] on a parsed JSON value: some value when j is an
object containing the key, none otherwise (JS gives undefined, or throws on
further access, both of which end inside the same try/catch). -/
def getField : JVal → String → Option JVal
  | .obj fields, k => (List.find? (fun p => p.1 == k) fields).map (fun p => p.2)
  | _, _ => none

/-- The per-index accumulation record for fragmented tool-call deltas:
\x7b id, name, args \x7d with args accumulated as raw JSON text. -/
structure ToolAccEntry where
  id : String
  name : String
  args : String

/-- currentToolCalls.get(index): JS Map lookup. -/
def accGet (acc : List (Nat × ToolAccEntry)) (i : Nat) : Option ToolAccEntry :=
  (List.find? (fun p => p.1 == i) acc).map (fun p => p.2)

/-- currentToolCalls.set(index, e): JS Map set keeps the insertion position
of an existing key and appends a new key at the end (values() iterates in
insertion order). -/
def accSet (acc : List (Nat × ToolAccEntry)) (i : Nat) (e : ToolAccEntry) : List (Nat × ToolAccEntry) :=
  if List.any acc (fun p => p.1 == i) then
    List.map (fun p => if p.1 == i then (i, e) else p) acc
  else
    acc ++ [(i, e)]

/-- Processing of one element of delta.tool_calls: merge the fragment into
the accumulator entry at its index, setting id and function.name when they
arrive truthy and appending function.arguments text.  Fragments without a
numeric index are not modelled (the protocol always sends one). -/
def applyToolCallDelta (acc : List (Nat × ToolAccEntry)) (item : JVal) : List (Nat × ToolAccEntry) :=
  match getField item "index" with
  | some (.num n) =>
    if n < 0 then acc
    else
      let idx := n.toNat
      let existing := (accGet acc idx).getD ⟨"", "", ""⟩
      let e1 :=
        match getField item "id" with
        | some (.str s) => if s == "" then existing else { existing with id := s }
        | _ => existing
      let fn := getField item "function"
      let e2 :=
        match fn.bind (fun f => getField f "name") with
        | some (.str s) => if s == "" then e1 else { e1 with name := s }
        | _ => e1
      let e3 :=
        match fn.bind (fun f => getField f "arguments") with
        | some (.str s) => if s == "" then e2 else { e2 with args := e2.args ++ s }
        | _ => e2
      accSet acc idx e3
  | _ => acc

/-- The snapshot emitted after merging a tool-call delta: every accumulated
entry, with its argument text JSON-decoded where possible and an
empty-object placeholder otherwise. -/
def snapshotOf (jsonParse : String → Option JVal) (acc : List (Nat × ToolAccEntry)) : List ToolCall :=
  List.map
    (fun p =>
      { id := p.2.id
        name := p.2.name
        args :=
          match jsonParse p.2.args with
          | some v => v
          | none => JVal.obj [] })
    acc

/-- The observable parser state across lines: the tool-call accumulator,
the chunks yielded so far, and whether the terminal sentinel was seen
(after which the generator has returned). -/
structure OAILineState where
  acc : List (Nat × ToolAccEntry)
  emitted : List StreamChunk
  done : Bool

/-- Processing of one successfully parsed data-line payload: read
choices[0]?.delta, yield a text chunk for truthy delta.content, then merge
delta.tool_calls fragments and yield a full snapshot chunk. -/
def processDelta (jsonParse : String → Option JVal) (st : OAILineState) (j : JVal) : OAILineState :=
  match getField j "choices" with
  | some (.arr choices) =>
    let delta := (choices.get? 0).bind (fun c => getField c "delta")
    let st1 :=
      match delta.bind (fun d => getField d "content") with
      | some (.str c) =>
        if c == "" then st
        else { st with emitted := st.emitted ++ [{ textDelta := some c }] }
      | _ => st
    match delta.bind (fun d => getField d "tool_calls") with
    | some (.arr items) =>
      let acc2 := List.foldl applyToolCallDelta st1.acc items
      { st1 with
        acc := acc2
        emitted := st1.emitted ++ [{ toolCalls := some (snapshotOf jsonParse acc2) }] }
    | _ => st1
  | _ => st

/-- Model of String.prototype.trim on character sequences: strip whitespace
from both ends. -/
def trimChars (line : List Char) : List Char :=
  ((line.dropWhile Char.isWhitespace).reverse.dropWhile Char.isWhitespace).reverse

/-- Processing of one complete line of the chunked response: skip when the
generator already returned; trim; ignore lines not starting with 'data: ';
return on the exact sentinel 'data: [DONE]'; JSON-parse the payload after
the 6-character prefix, swallowing parse failures. -/
def lineStep (jsonParse : String → Option JVal) (st : OAILineState) (line : List Char) : OAILineState :=
  if st.done then st
  else
    let trimmed := trimChars line
    if !(List.isPrefixOf ("data: ").toList trimmed) then st
    else if trimmed == ("data: [DONE]").toList then { st with done := true }
    else
      match jsonParse (String.mk (trimmed.drop 6)) with
      | none => st
      | some j => processDelta jsonParse st j

/-- Sequential processing of a list of complete lines. -/
def linesRun (jsonParse : String → Option JVal) (st : OAILineState) (lines : List (List Char)) : OAILineState :=
  List.foldl (lineStep jsonParse) st lines

/-- buffer.split('\n'): the segments of a character sequence between
newlines (always non-empty; a trailing segment holds the text after the
last newline). -/
def splitNL : List Char → List (List Char)
  | [] => [[]]
  | c :: rest =>
    let r := splitNL rest
    if c = '\n' then [] :: r
    else
      match r with
      | [] => [[c]]
      | seg :: segs => (c :: seg) :: segs

/-- Prepending text to the first segment of a split (the shape in which a
buffered fragment merges with the next chunk's first line). -/
def consHead (x : List Char) : List (List Char) → List (List Char)
  | [] => [x]
  | seg :: segs => (x ++ seg) :: segs

/-- The transport state of the read loop: the carried-over line fragment
plus the line-processing state. -/
structure OAIStreamState where
  buffer : List Char
  line : OAILineState

/-- One iteration of the read loop: append the decoded chunk to the
buffer, split on newlines, keep the trailing fragment as the new buffer,
and process every complete line. -/
def chunkStep (jsonParse : String → Option JVal) (st : OAIStreamState) (chunk : List Char) : OAIStreamState :=
  let segs := splitNL (st.buffer ++ chunk)
  { buffer := segs.getLastD []
    line := linesRun jsonParse st.line segs.dropLast }

/-- The whole streamOpenAI read loop over a sequence of delivered chunks,
from an empty buffer and a fresh line state. -/
def streamRun (jsonParse : String → Option JVal) (chunks : List (List Char)) : OAIStreamState :=
  List.foldl (chunkStep jsonParse) ⟨[], ⟨[], [], false⟩⟩ chunks

/-! ## Predicates and fixtures used by the claim statements -/

/-- The auto-executable classification the code actually applies at stream
end: first registered tool of the call's name, truthy autoExecute, truthy
implementation.  The tool's active flag is not consulted. -/
def autoExecutableByCode (tools : List UserTool) (tc : ToolCall) : Bool :=
  match List.find? (fun t => t.definition.name == tc.name) tools with
  | some toolConfig =>
    optBoolTruthy toolConfig.autoExecute && optStrTruthy toolConfig.implementation
  | none => false

/-- The auto-executable classification as the specification words it:
registered, active, autoExecute set, non-empty executable source. -/
def autoExecutableBySpec (tools : List UserTool) (tc : ToolCall) : Bool :=
  match List.find? (fun t => t.definition.name == tc.name) tools with
  | some toolConfig =>
    toolConfig.active && optBoolTruthy toolConfig.autoExecute &&
      optStrTruthy toolConfig.implementation
  | none => false

/-- Every stored message's id field agrees with its key (the basic map
invariant maintained by all writers). -/
def keysCoherent (map : MsgMap) : Bool :=
  List.all map (fun p => p.2.id == p.1)

/-- Acyclicity of parent links, witnessed by a rank function that strictly
decreases from child to present parent and stays below the map size.  Any
genuinely acyclic mapping admits such a rank (e.g. the ancestor-chain
length). -/
def rankOk (map : MsgMap) (d : String → Nat) : Bool :=
  List.all map (fun p =>
    (match p.2.parentId with
     | none => true
     | some q =>
       match lookup map q with
       | none => true
       | some _ => decide (d q < d p.1)) &&
    decide (d p.1 < size map))

/-- The walk's clean stop condition on its root-most node: null parentId,
the falsy empty-string parentId, or a dangling parentId. -/
def stopClean (map : MsgMap) (msg : Message) : Prop :=
  msg.parentId = none ∨ msg.parentId = some "" ∨
    (∃ q, msg.parentId = some q ∧ lookup map q = none)

/-- A well-formed append sequence from a given mapping: each appended node
carries the given parentId, starts with no children, has a fresh id, and
names a parent that is null or present at append time. -/
def goodOps : MsgMap → List (Option String × Message) → Bool
  | _, [] => true
  | m, op :: rest =>
    (op.2.parentId == op.1) &&
    (op.2.childrenIds == ([] : List String)) &&
    !(keyPresent m op.2.id) &&
    (match op.1 with
     | none => true
     | some q => keyPresent m q) &&
    goodOps (appendToTree op.1 op.2 m) rest

/-- Whether a raw request took the OpenAI-compatible shape. -/
def isOpenAIShape : RawRequest → Bool
  | .openai _ _ _ => true
  | .gemini _ _ _ _ => false

/-- Fixture: a registered, inactive tool flagged for auto-execution with a
non-empty implementation. -/
def inactiveAutoTool : UserTool :=
  { id := "t1"
    definition := { name := "get_weather", description := "", parameters := JVal.null }
    active := false
    implementation := some "return 1"
    autoExecute := some true }

/-- Fixture: a tool call naming the inactive tool. -/
def weatherCall : ToolCall :=
  { id := "c1", name := "get_weather", args := JVal.null }

/-- Fixture: a node keyed by the empty string (a legal key of a JS
object). -/
def emptyKeyMap : MsgMap :=
  [("", { id := "", role := Role.user, parentId := none, childrenIds := [] })]

/-- Fixture: a root r with sole child a, where a has two children b and c;
b is the current head, reachable by navigating to a's earlier branch. -/
def soleSiblingMap : MsgMap :=
  [ ("r", { id := "r", role := Role.user, parentId := none, childrenIds := ["a"] })
  , ("a", { id := "a", role := Role.model, parentId := some "r", childrenIds := ["b", "c"] })
  , ("b", { id := "b", role := Role.model, parentId := some "a", childrenIds := [] })
  , ("c", { id := "c", role := Role.model, parentId := some "a", childrenIds := [] }) ]

/-- Fixture: an append whose given parentId is absent from the mapping; the
node keeps the dangling parentId field. -/
def danglingAppendOps : List (Option String × Message) :=
  [(some "ghost", { id := "x", role := Role.user, parentId := some "ghost", childrenIds := [] })]

/-- Fixture: a well-formed two-append sequence (root r, then child k). -/
def sampleOps : List (Option String × Message) :=
  [ (none, { id := "r", role := Role.user, parentId := none, childrenIds := [] })
  , (some "r", { id := "k", role := Role.model, parentId := some "r", childrenIds := [] }) ]

/-- The concatenation of the text deltas of a chunk sequence (absent deltas
contribute nothing): the reference for append-only text accumulation. -/
def textConcat : List StreamChunk → String
  | [] => ""
  | c :: rest => c.textDelta.getD "" ++ textConcat rest

/-- Fixture: a registered, active tool flagged for auto-execution. -/
def activeAutoTool : UserTool :=
  { id := "t2"
    definition := { name := "get_weather", description := "", parameters := JVal.null }
    active := true
    implementation := some "return 1"
    autoExecute := some true }

/-- Fixture: a second tool call whose tool is not registered. -/
def otherCall : ToolCall :=
  { id := "c2", name := "unregistered_tool", args := JVal.null }

/-- Fixture: a model whose provider is an unrecognized string. -/
def sampleModel : ModelConfig :=
  { id := "m1", name := "sample", provider := "anthropic", modelId := "mx", apiKey := "k" }

/-- Fixture: a config whose active model is sampleModel. -/
def sampleConfig : AppConfig :=
  { activeModelId := "m1"
    models := [sampleModel]
    systemPrompt := "sp"
    memories := []
    tools := [] }

/-- Fixture: a config with no models at all. -/
def emptyConfig : AppConfig :=
  { activeModelId := "m1", models := [], systemPrompt := "sp", memories := [], tools := [] }

/-- Fixture: a finalized model node at head h requesting two calls, only
the first of which names an auto-executable tool. -/
def twoCallMap : MsgMap :=
  [("h", { id := "h", role := Role.model, toolCalls := some [weatherCall, otherCall],
           parentId := none, childrenIds := [] })]

/-- Fixture: a finalized model node at head h requesting one auto-executable
call. -/
def oneCallMap : MsgMap :=
  [("h", { id := "h", role := Role.model, toolCalls := some [weatherCall],
           parentId := none, childrenIds := [] })]

/-- Fixture: an execution capability that returns the string "sunny". -/
def sunnyExec : String → JVal → ExecOutcome := fun _ _ => .ok (.str "sunny")

/-- Fixture: a two-node chain for thread-projection witnesses. -/
def chainMap : MsgMap :=
  [ ("r", { id := "r", role := Role.user, parentId := none, childrenIds := ["k"] })
  , ("k", { id := "k", role := Role.model, parentId := some "r", childrenIds := [] }) ]

/-- Fixture: a rank function for chainMap. -/
def chainRank : String → Nat := fun s => if s == "r" then 0 else 1

/-! ## Helper lemmas about the association-list mapping -/

theorem lookup_nil (k : String) : lookup [] k = none := rfl

theorem lookup_cons_pos {x : String × Message} {xs : MsgMap} {k : String}
    (h : (x.1 == k) = true) : lookup (x :: xs) k = some x.2 := by
  unfold lookup
  rw [show List.find? (fun p => p.1 == k) (x :: xs) = some x from List.find?_cons_of_pos _ h]
  rfl

theorem lookup_cons_neg {x : String × Message} {xs : MsgMap} {k : String}
    (h : (x.1 == k) = false) : lookup (x :: xs) k = lookup xs k := by
  unfold lookup
  rw [show List.find? (fun p => p.1 == k) (x :: xs) = List.find? (fun p => p.1 == k) xs from
    List.find?_cons_of_neg _ (by simp [h])]

theorem keyPresent_cons (x : String × Message) (xs : MsgMap) (k : String) :
    keyPresent (x :: xs) k = ((x.1 == k) || keyPresent xs k) := by
  simp [keyPresent]

theorem keyPresent_iff_lookup (map : MsgMap) (k : String) :
    keyPresent map k = (lookup map k).isSome := by
  induction map with
  | nil => rfl
  | cons p rest ih =>
    rw [keyPresent_cons]
    by_cases h : (p.1 == k) = true
    · rw [lookup_cons_pos h, h]; rfl
    · have h' : (p.1 == k) = false := by simpa using h
      rw [lookup_cons_neg h', h', Bool.false_or]
      exact ih

theorem keyPresent_of_lookup_some {map : MsgMap} {k : String} {v : Message}
    (h : lookup map k = some v) : keyPresent map k = true := by
  rw [keyPresent_iff_lookup, h]; rfl

theorem lookup_none_of_not_keyPresent {map : MsgMap} {k : String}
    (h : keyPresent map k = false) : lookup map k = none := by
  rw [keyPresent_iff_lookup] at h
  exact Option.not_isSome_iff_eq_none.mp (by simp [h])

theorem lookup_setKey_self (map : MsgMap) (k : String) (v : Message) :
    lookup (setKey map k v) k = some v := by
  unfold setKey
  by_cases h : keyPresent map k = true
  · rw [if_pos h]
    induction map with
    | nil => cases h
    | cons p rest ih =>
      rw [keyPresent_cons] at h
      rw [List.map_cons]
      by_cases hp : (p.1 == k) = true
      · rw [if_pos hp]
        exact lookup_cons_pos (by simp)
      · have hp' : (p.1 == k) = false := by simpa using hp
        rw [if_neg hp]
        rw [lookup_cons_neg hp']
        rw [hp', Bool.false_or] at h
        exact ih h
  · rw [if_neg h]
    have h' : keyPresent map k = false := by simpa using h
    clear h
    induction map with
    | nil => exact lookup_cons_pos (by simp)
    | cons p rest ih =>
      rw [keyPresent_cons, Bool.or_eq_false_iff] at h'
      rw [List.cons_append, lookup_cons_neg h'.1]
      exact ih h'.2

theorem lookup_setKey_ne (map : MsgMap) (k k2 : String) (v : Message)
    (h : (k2 == k) = false) : lookup (setKey map k v) k2 = lookup map k2 := by
  have hkk : (k == k2) = false := by
    rw [BEq.comm]; exact h
  unfold setKey
  by_cases hp : keyPresent map k = true
  · rw [if_pos hp]
    clear hp
    induction map with
    | nil => rfl
    | cons p rest ih =>
      rw [List.map_cons]
      by_cases h1 : (p.1 == k) = true
      · rw [if_pos h1]
        rw [lookup_cons_neg hkk]
        have hp2 : (p.1 == k2) = false := by
          have : p.1 = k := by simpa using h1
          rw [this]; exact hkk
        rw [lookup_cons_neg hp2]
        exact ih
      · rw [if_neg h1]
        by_cases h2 : (p.1 == k2) = true
        · rw [lookup_cons_pos h2, lookup_cons_pos h2]
        · have h2' : (p.1 == k2) = false := by simpa using h2
          rw [lookup_cons_neg h2', lookup_cons_neg h2']
          exact ih
  · rw [if_neg hp]
    clear hp
    induction map with
    | nil =>
      rw [List.nil_append]
      rw [lookup_cons_neg hkk]
    | cons p rest ih =>
      rw [List.cons_append]
      by_cases h2 : (p.1 == k2) = true
      · rw [lookup_cons_pos h2, lookup_cons_pos h2]
      · have h2' : (p.1 == k2) = false := by simpa using h2
        rw [lookup_cons_neg h2', lookup_cons_neg h2']
        exact ih

theorem size_setKey (map : MsgMap) (k : String) (v : Message) :
    size (setKey map k v) = if keyPresent map k then size map else size map + 1 := by
  unfold setKey
  by_cases h : keyPresent map k
  · simp [h, size]
  · simp [h, size]

theorem keys_setKey_present (map : MsgMap) (k : String) (v : Message)
    (h : keyPresent map k = true) :
    keys (setKey map k v) = keys map := by
  unfold setKey keys
  rw [if_pos h]
  rw [List.map_map]
  apply List.map_congr_left
  intro p _
  simp only [Function.comp]
  by_cases h1 : (p.1 == k) = true
  · rw [if_pos h1]; exact ((by simpa using h1 : p.1 = k)).symm
  · rw [if_neg h1]

theorem keys_setKey_absent (map : MsgMap) (k : String) (v : Message)
    (h : keyPresent map k = false) :
    keys (setKey map k v) = keys map ++ [k] := by
  unfold setKey keys
  rw [if_neg (by simp [h])]
  simp

theorem keyPresent_eq_mem_keys (map : MsgMap) (k : String) :
    keyPresent map k = true ↔ k ∈ keys map := by
  simp only [keyPresent, keys, List.any_eq_true, List.mem_map]
  constructor
  · rintro ⟨p, hp, hpk⟩
    exact ⟨p, hp, by simpa using hpk⟩
  · rintro ⟨p, hp, hpk⟩
    exact ⟨p, hp, by simp [hpk]⟩

theorem runQueue_length (exec : String → JVal → ExecOutcome) (queue : List (ToolCall × UserTool)) :
    (runQueue exec queue).length = queue.length := by
  induction queue with
  | nil => rfl
  | cons item rest ih => simp [runQueue, ih]

theorem execQueue_map_fst (tools : List UserTool) (calls : List ToolCall) :
    List.map (fun p => p.1) (execQueue tools calls) =
      List.filter (fun tc => autoExecutableByCode tools tc) calls := by
  induction calls with
  | nil => rfl
  | cons tc rest ih =>
    rw [List.filter_cons]
    cases hf : List.find? (fun t => t.definition.name == tc.name) tools with
    | none =>
      have hab : autoExecutableByCode tools tc = false := by
        simp [autoExecutableByCode, hf]
      have hq : execQueue tools (tc :: rest) = execQueue tools rest := by
        simp [execQueue, List.filterMap_cons, hf]
      rw [hq, hab, ih]
      simp
    | some t =>
      by_cases hc : (optBoolTruthy t.autoExecute && optStrTruthy t.implementation) = true
      · have hab : autoExecutableByCode tools tc = true := by
          simp only [autoExecutableByCode, hf]
          exact hc
        have hq : execQueue tools (tc :: rest) = (tc, t) :: execQueue tools rest := by
          rcases (Bool.and_eq_true _ _).mp hc with ⟨h1, h2⟩
          simp [execQueue, List.filterMap_cons, hf, h1, h2]
        rw [hq, hab, List.map_cons, ih]
        simp
      · have hcp : ¬ (optBoolTruthy t.autoExecute = true ∧ optStrTruthy t.implementation = true) := by
          rw [← Bool.and_eq_true]; exact hc
        have hab : autoExecutableByCode tools tc = false := by
          simp only [autoExecutableByCode, hf]
          exact Bool.eq_false_iff.mpr hc
        have hq : execQueue tools (tc :: rest) = execQueue tools rest := by
          simp [execQueue, List.filterMap_cons, hf, hcp]
        rw [hq, hab, ih]
        simp

/-! ## Claim C1: auto-executable classification at stream end -/

/-- Claim C1 (counterexample): a registered but inactive tool with
autoExecute set and a non-empty implementation is still placed on the
execution queue by the code, although the claim's classification
(registered AND active AND autoExecute AND non-empty source) rejects it:
the claimed "if and only if" fails on the active flag. -/
theorem c1_counterexample :
    autoExecutableBySpec [inactiveAutoTool] weatherCall = false ∧
    List.map (fun p => p.1.id) (execQueue [inactiveAutoTool] [weatherCall]) = ["c1"] := by
  constructor <;> rfl

/-- Claim C1 (amended): at stream end a call is classified auto-executable
iff a registered tool with the call's name exists (first match), that tool
has autoExecute=true and non-empty executable source — the tool's active
flag is not consulted; calls that do not qualify are excluded from the
execution queue (left pending). -/
theorem c1_auto_executable_classification :
    ∀ (tools : List UserTool) (calls : List ToolCall),
      List.map (fun p => p.1) (execQueue tools calls) =
        List.filter (fun tc => autoExecutableByCode tools tc) calls ∧
      (∀ p ∈ execQueue tools calls,
        List.find? (fun t => t.definition.name == p.1.name) tools = some p.2) ∧
      (∀ tc ∈ calls, autoExecutableByCode tools tc = false →
        tc ∉ List.map (fun p => p.1) (execQueue tools calls)) := by
  intro tools calls
  refine ⟨execQueue_map_fst tools calls, ?_, ?_⟩
  · intro p hp
    rcases List.mem_filterMap.mp hp with ⟨tc, _, hf⟩
    cases hfind : List.find? (fun t => t.definition.name == tc.name) tools with
    | none => simp [hfind] at hf
    | some t =>
      simp only [hfind] at hf
      by_cases hc : (optBoolTruthy t.autoExecute && optStrTruthy t.implementation) = true
      · simp only [hc, if_true, Option.some_inj] at hf
        rw [← hf]
        exact hfind
      · simp only [Bool.not_eq_true] at hc
        simp [hc] at hf
  · intro tc _ hfalse hmem
    rw [execQueue_map_fst tools calls] at hmem
    have := List.of_mem_filter hmem
    rw [hfalse] at this
    cases this

/-- Claim C1 witness: a fully qualifying tool is queued, its queue record
points at the registered tool, and the unregistered call is excluded. -/
theorem c1_auto_executable_classification_witness :
    List.map (fun p => p.1) (execQueue [activeAutoTool] [weatherCall, otherCall]) =
      List.filter (fun tc => autoExecutableByCode [activeAutoTool] tc) [weatherCall, otherCall] ∧
    List.find? (fun t => t.definition.name == weatherCall.name) [activeAutoTool] =
      some activeAutoTool ∧
    otherCall ∉ List.map (fun p => p.1) (execQueue [activeAutoTool] [weatherCall, otherCall]) := by
  have h := c1_auto_executable_classification [activeAutoTool] [weatherCall, otherCall]
  refine ⟨h.1, ?_, ?_⟩
  · have hq : execQueue [activeAutoTool] [weatherCall, otherCall] =
        [(weatherCall, activeAutoTool)] := rfl
    exact h.2.1 (weatherCall, activeAutoTool) (by rw [hq]; exact List.mem_singleton.mpr rfl)
  · exact h.2.2 otherCall (by simp) rfl

/-! ## Claim C3: snapshot replacement, text accumulation -/

theorem accumulateStream_fst_aux (chunks : List StreamChunk) :
    ∀ st : String × List ToolCall,
      (List.foldl foldChunk st chunks).1 = st.1 ++ textConcat chunks := by
  induction chunks with
  | nil =>
    intro st
    simp [textConcat, List.foldl_nil]
  | cons c rest ih =>
    intro st
    rw [List.foldl_cons, ih, textConcat]
    have hstep : (foldChunk st c).1 = st.1 ++ c.textDelta.getD "" := by
      unfold foldChunk
      cases hd : c.textDelta with
      | none => simp
      | some t =>
        by_cases ht : (t == "") = true
        · have : t = "" := by simpa using ht
          simp [ht, this]
        · have ht' : (t == "") = false := by simpa using ht
          simp [ht']
    rw [hstep, String.append_assoc]

theorem accumulateStream_snd_aux (chunks : List StreamChunk) :
    ∀ st : String × List ToolCall,
      (List.foldl foldChunk st chunks).2 = (lastNonAbsentSnapshot chunks).getD st.2 := by
  induction chunks with
  | nil =>
    intro st
    simp [lastNonAbsentSnapshot, List.foldl_nil]
  | cons c rest ih =>
    intro st
    rw [List.foldl_cons, ih, lastNonAbsentSnapshot]
    cases hl : lastNonAbsentSnapshot rest with
    | some s => simp
    | none =>
      cases hd : c.toolCalls with
      | none => simp [foldChunk, hd]
      | some tcs => simp [foldChunk, hd]

/-- Claim C3 (confirmed): over any streamed chunk sequence, the
accumulated text is the append-only concatenation of the text deltas, and
the toolCalls finally stored on the pending model node are exactly the last
non-absent snapshot in the sequence (pure replacement, never a merge) —
stored as undefined rather than an empty sequence when that snapshot is
absent or empty, per the node-update convention. -/
theorem c3_snapshot_replacement :
    ∀ chunks : List StreamChunk,
      (accumulateStream chunks).1 = textConcat chunks ∧
      storedToolCalls chunks =
        (match lastNonAbsentSnapshot chunks with
         | none => none
         | some s => if s.length > 0 then some s else none) := by
  intro chunks
  constructor
  · rw [accumulateStream, accumulateStream_fst_aux chunks ("", [])]
    simp
  · rw [storedToolCalls, accumulateStream, accumulateStream_snd_aux chunks ("", [])]
    cases hl : lastNonAbsentSnapshot chunks with
    | none => simp
    | some s => simp

/-! ## Claim C5: tool-result serialization and per-call error capture -/

/-- Claim C5 (confirmed): every auto-executed call stores the JSON
serialization of its outcome — the stringified return value on success
(so the string "sunny" is stored quoted) and the stringified
\x7b error: message \x7d object on a thrown failure — one result per
queued call in order, so a failure never aborts the remaining calls. -/
theorem c5_result_serialization :
    ∀ (exec : String → JVal → ExecOutcome) (queue : List (ToolCall × UserTool)),
      runQueue exec queue =
        List.map
          (fun item =>
            { callId := item.1.id
              result :=
                match exec (item.2.implementation.getD "") item.1.args with
                | .ok output => jsonStringify output
                | .err m => jsonStringify (.obj [("error", .str m)])
              isError := none })
          queue ∧
      (runQueue exec queue).length = queue.length ∧
      jsonStringify (.str "sunny") = "\"sunny\"" ∧
      jsonStringify (.obj [("error", .str "boom")]) = "\x7b\"error\":\"boom\"\x7d" := by
  intro exec queue
  refine ⟨?_, runQueue_length exec queue, rfl, rfl⟩
  induction queue with
  | nil => rfl
  | cons item rest ih =>
    rw [runQueue, List.map_cons, ih]

/-! ## Claim C4: automatic continuation iff all calls auto-executed -/

theorem appendToTree_fresh (p : String) (node : Message) (m : MsgMap)
    (hfresh : keyPresent m node.id = false) (hp : (p == node.id) = false) :
    size (appendToTree (some p) node m) = size m + 1 ∧
    lookup (appendToTree (some p) node m) node.id = some node := by
  have hbase : size (setKey m node.id node) = size m + 1 := by
    rw [size_setKey, if_neg (by simp [hfresh])]
  have hlkbase : lookup (setKey m node.id node) node.id = some node :=
    lookup_setKey_self m node.id node
  unfold appendToTree
  by_cases hpe : (p == "") = true
  · simp only [hpe, if_true]
    exact ⟨hbase, hlkbase⟩
  · have hpe' : (p == "") = false := by simpa using hpe
    simp only [hpe', Bool.false_eq_true, if_false]
    cases hlp : lookup (setKey m node.id node) p with
    | none => exact ⟨hbase, hlkbase⟩
    | some parent =>
      constructor
      · rw [size_setKey, if_pos (keyPresent_of_lookup_some hlp), hbase]
      · rw [lookup_setKey_ne _ _ _ _ (by rw [BEq.comm] at hp; simpa using hp)]
        exact hlkbase

/-- Claim C4 (confirmed): when the finalized model node carries at least
one tool call, a new turn starts automatically iff the number of
auto-execution results equals the number of tool calls; whenever any
result was produced, exactly one tool node carrying all produced results
is appended (map grows by one entry) and head advances to it; with a
non-empty remainder (the partial case) no automatic continuation occurs. -/
theorem c4_recursion_rule :
    ∀ (tools : List UserTool) (exec : String → JVal → ExecOutcome)
      (toolMsgId : String) (ts : Int) (map : MsgMap) (head : String)
      (finalMsg : Message) (calls : List ToolCall),
      lookup map head = some finalMsg →
      finalMsg.toolCalls = some calls →
      calls ≠ [] →
      ((dispatchAfterStream tools exec toolMsgId ts map head).continueTurn = true ↔
        (runQueue exec (execQueue tools calls)).length = calls.length) ∧
      (execQueue tools calls ≠ [] →
        (dispatchAfterStream tools exec toolMsgId ts map head).map =
          appendToTree (some head)
            { id := toolMsgId, role := .tool,
              toolResults := some (runQueue exec (execQueue tools calls)),
              timestamp := ts, parentId := some head, childrenIds := [] } map ∧
        (dispatchAfterStream tools exec toolMsgId ts map head).head = toolMsgId ∧
        (dispatchAfterStream tools exec toolMsgId ts map head).autoResults =
          runQueue exec (execQueue tools calls) ∧
        (keyPresent map toolMsgId = false →
          size (dispatchAfterStream tools exec toolMsgId ts map head).map = size map + 1 ∧
          lookup (dispatchAfterStream tools exec toolMsgId ts map head).map toolMsgId =
            some { id := toolMsgId, role := .tool,
                   toolResults := some (runQueue exec (execQueue tools calls)),
                   timestamp := ts, parentId := some head, childrenIds := [] })) ∧
      (execQueue tools calls = [] →
        (dispatchAfterStream tools exec toolMsgId ts map head).map = map ∧
        (dispatchAfterStream tools exec toolMsgId ts map head).head = head ∧
        (dispatchAfterStream tools exec toolMsgId ts map head).continueTurn = false) ∧
      ((runQueue exec (execQueue tools calls)).length < calls.length →
        (dispatchAfterStream tools exec toolMsgId ts map head).continueTurn = false) := by
  intro tools exec toolMsgId ts map head finalMsg calls hlk htc hne
  have hlen : calls.length > 0 := List.length_pos.mpr hne
  have hrq : (runQueue exec (execQueue tools calls)).length = (execQueue tools calls).length :=
    runQueue_length exec (execQueue tools calls)
  by_cases hq : execQueue tools calls = []
  · have hD : dispatchAfterStream tools exec toolMsgId ts map head =
        ⟨map, head, [], false⟩ := by
      unfold dispatchAfterStream
      simp only [hlk, htc, hq]
      rw [if_pos hlen]
      simp
    refine ⟨?_, fun hcon => absurd hq hcon, fun _ => ⟨by rw [hD], by rw [hD], by rw [hD]⟩,
      fun _ => by rw [hD]⟩
    rw [hD]
    simp only [Bool.false_eq_true, false_iff]
    rw [hq]
    simp only [runQueue, List.length_nil]
    omega
  · have hqlen : (execQueue tools calls).length > 0 := List.length_pos.mpr hq
    have hrlen : (runQueue exec (execQueue tools calls)).length > 0 := by omega
    have hD : dispatchAfterStream tools exec toolMsgId ts map head =
        ⟨appendToTree (some head)
            { id := toolMsgId, role := .tool,
              toolResults := some (runQueue exec (execQueue tools calls)),
              timestamp := ts, parentId := some head, childrenIds := [] } map,
          toolMsgId, runQueue exec (execQueue tools calls),
          (runQueue exec (execQueue tools calls)).length == calls.length⟩ := by
      unfold dispatchAfterStream
      simp only [hlk, htc]
      rw [if_pos hlen]
      simp only [if_pos hqlen, if_pos hrlen]
    refine ⟨?_, fun _ => ⟨by rw [hD], by rw [hD], by rw [hD], ?_⟩,
      fun hcon => absurd hcon hq, ?_⟩
    · rw [hD]
      simp only [beq_iff_eq]
    · intro hfresh
      have hne2 : (head == toolMsgId) = false := by
        by_contra hcc
        simp only [Bool.not_eq_false] at hcc
        have : head = toolMsgId := by simpa using hcc
        rw [this] at hlk
        rw [keyPresent_of_lookup_some hlk] at hfresh
        cases hfresh
      have := appendToTree_fresh head
        { id := toolMsgId, role := .tool,
          toolResults := some (runQueue exec (execQueue tools calls)),
          timestamp := ts, parentId := some head, childrenIds := [] } map hfresh hne2
      rw [hD]
      exact this
    · intro hlt
      rw [hD]
      simp only [DispatchOutcome.continueTurn]
      have : (runQueue exec (execQueue tools calls)).length ≠ calls.length := by omega
      simpa using this

/-- Claim C4 witness: with two requested calls and one auto-executable
tool, exactly one tool node with one result is appended, head advances to
it, and no automatic continuation occurs; with a single auto-executable
call the turn continues automatically. -/
theorem c4_recursion_rule_witness :
    ((dispatchAfterStream [activeAutoTool] sunnyExec "tm" 0 twoCallMap "h").continueTurn = true ↔
      (runQueue sunnyExec (execQueue [activeAutoTool] [weatherCall, otherCall])).length =
        [weatherCall, otherCall].length) ∧
    (dispatchAfterStream [activeAutoTool] sunnyExec "tm" 0 twoCallMap "h").head = "tm" ∧
    size (dispatchAfterStream [activeAutoTool] sunnyExec "tm" 0 twoCallMap "h").map =
      size twoCallMap + 1 ∧
    (dispatchAfterStream [activeAutoTool] sunnyExec "tm" 0 twoCallMap "h").continueTurn = false ∧
    (dispatchAfterStream [activeAutoTool] sunnyExec "tm" 0 oneCallMap "h").continueTurn = true := by
  have h := c4_recursion_rule [activeAutoTool] sunnyExec "tm" 0 twoCallMap "h"
    { id := "h", role := Role.model, toolCalls := some [weatherCall, otherCall],
      parentId := none, childrenIds := [] }
    [weatherCall, otherCall] rfl rfl (by simp)
  have h2 := h.2.1 (by intro hc; cases hc)
  refine ⟨h.1, h2.2.1, ?_, ?_, ?_⟩
  · exact (h2.2.2.2 rfl).1
  · exact h.2.2.2 (by rw [runQueue_length]; decide)
  · rfl

/-! ## Claim C6: failures write a visible error into the pending node -/

/-- Claim C6 (confirmed): every failure during context construction or
streaming — including sendMessageStream's missing-active-model and
missing-API-key errors and any transport failure — leaves the pending model
node's content set to a human-readable "Error: ..." string, never empty,
and the pending node is never left without content. -/
theorem c6_error_written_to_pending_node :
    (∀ (modelMsgId startHeadId : String) (ts : Int) (chunks : List StreamChunk)
        (msg : Option String),
      (runTurnNode modelMsgId startHeadId ts (.failure chunks msg)).content =
        some (errorContent msg)) ∧
    (∀ msg : Option String, ∃ tail, errorContent msg = "Error: " ++ tail ∧ tail ≠ "") ∧
    (∀ (config : AppConfig) (e : String), sendMessageStreamRoute config = .error e →
      e ≠ "" ∧
      ∀ (modelMsgId startHeadId : String) (ts : Int),
        (runTurnNode modelMsgId startHeadId ts (.failure [] (some e))).content =
          some ("Error: " ++ e)) ∧
    (∀ (modelMsgId startHeadId : String) (ts : Int) (res : StreamResult),
      ((runTurnNode modelMsgId startHeadId ts res).content).isSome = true) := by
  have hfail : ∀ (modelMsgId startHeadId : String) (ts : Int) (chunks : List StreamChunk)
      (msg : Option String),
      (runTurnNode modelMsgId startHeadId ts (.failure chunks msg)).content =
        some (errorContent msg) := by
    intro a b ts chunks msg
    cases chunks <;> rfl
  refine ⟨hfail, ?_, ?_, ?_⟩
  · intro msg
    cases msg with
    | none => exact ⟨"Unknown error occurred", rfl, by decide⟩
    | some m =>
      by_cases hm : (m == "") = true
      · refine ⟨"Unknown error occurred", ?_, by decide⟩
        simp [errorContent, hm]
      · have hm' : (m == "") = false := by simpa using hm
        refine ⟨m, ?_, by simpa using hm'⟩
        simp [errorContent, hm']
  · intro config e herr
    unfold sendMessageStreamRoute at herr
    cases hf : findActiveModel config with
    | none =>
      simp only [hf] at herr
      have he : e = "No active model selected." := by
        cases herr
        rfl
      subst he
      refine ⟨by decide, ?_⟩
      intro a b ts
      rw [hfail]
      rfl
    | some mdl =>
      simp only [hf] at herr
      by_cases hk : (mdl.apiKey == "") = true
      · rw [if_pos hk] at herr
        have he : e = "API Key is missing for the selected model." := by
          cases herr
          rfl
        subst he
        refine ⟨by decide, ?_⟩
        intro a b ts
        rw [hfail]
        rfl
      · rw [if_neg hk] at herr
        by_cases hp : (mdl.provider == "openai") = true
        · rw [if_pos hp] at herr
          cases herr
        · rw [if_neg hp] at herr
          cases herr
  · intro a b ts res
    cases res with
    | success chunks => cases chunks <;> rfl
    | failure chunks msg => cases chunks <;> rfl

/-- Claim C6 witness: the missing-active-model failure leaves the pending
node's content reading "Error: No active model selected.". -/
theorem c6_error_written_to_pending_node_witness :
    (runTurnNode "m1" "h1" 0 (.failure [] (some "No active model selected."))).content =
      some ("Error: " ++ "No active model selected.") :=
  (c6_error_written_to_pending_node.2.2.1 emptyConfig "No active model selected." rfl).2
    "m1" "h1" 0

/-! ## Claim C10: provider selection by the literal string "openai" -/

/-- Claim C10 (confirmed): whenever the active model exists, getRawRequest
builds the OpenAI-compatible request shape exactly when the provider string
equals "openai" and the Gemini shape for every other provider value, always
succeeding; sendMessageStream (given a non-empty API key) likewise routes to
the OpenAI streamer exactly for provider "openai" and to the Gemini streamer
otherwise, never rejecting an unrecognized provider string. -/
theorem c10_provider_dispatch :
    ∀ (jsonParse : String → Option JVal) (config : AppConfig) (msgs : List Message)
      (m : ModelConfig),
      findActiveModel config = some m →
      (∃ r, getRawRequest jsonParse config msgs = .ok r ∧
        (isOpenAIShape r = true ↔ m.provider = "openai")) ∧
      (m.apiKey ≠ "" →
        ∃ rt, sendMessageStreamRoute config = .ok rt ∧
          (rt = Route.openai ↔ m.provider = "openai")) := by
  intro jsonParse config msgs m hfind
  constructor
  · unfold getRawRequest
    simp only [hfind]
    by_cases hp : (m.provider == "openai") = true
    · rw [if_pos hp]
      refine ⟨_, rfl, ?_⟩
      simp only [isOpenAIShape, true_iff]
      simpa using hp
    · rw [if_neg hp]
      refine ⟨_, rfl, ?_⟩
      simp only [isOpenAIShape, Bool.false_eq_true, false_iff]
      intro hc
      exact hp (by simp [hc])
  · intro hk
    unfold sendMessageStreamRoute
    simp only [hfind]
    rw [if_neg (by simpa using hk)]
    by_cases hp : (m.provider == "openai") = true
    · rw [if_pos hp]
      refine ⟨_, rfl, ?_⟩
      simp only [true_iff]
      simpa using hp
    · rw [if_neg hp]
      refine ⟨_, rfl, ?_⟩
      constructor
      · intro hc
        cases hc
      · intro hc
        exact absurd (by simp [hc] : (m.provider == "openai") = true) hp

/-- Claim C10 witness: an unrecognized provider string ("anthropic") is
routed to the Gemini path by both request construction and streaming, with
no error. -/
theorem c10_provider_dispatch_witness :
    (∃ r, getRawRequest (fun _ => none) sampleConfig [] = .ok r ∧
      (isOpenAIShape r = true ↔ sampleModel.provider = "openai")) ∧
    (∃ rt, sendMessageStreamRoute sampleConfig = .ok rt ∧
      (rt = Route.openai ↔ sampleModel.provider = "openai")) := by
  have h := c10_provider_dispatch (fun _ => none) sampleConfig [] sampleModel rfl
  exact ⟨h.1, h.2 (by decide)⟩

/-! ## Claim C2: thread projection -/

theorem mem_of_lookup (map : MsgMap) (k : String) (v : Message)
    (h : lookup map k = some v) : (k, v) ∈ map := by
  unfold lookup at h
  cases hf : List.find? (fun p => p.1 == k) map with
  | none => rw [hf] at h; cases h
  | some p =>
    rw [hf] at h
    have hp := List.find?_some hf
    have hmem := List.mem_of_find?_eq_some hf
    have h1 : p.1 = k := by simpa using hp
    have h2 : p.2 = v := by simpa using h
    have hpv : p = (k, v) := by
      cases p
      simp_all
    rwa [hpv] at hmem

theorem rankOk_spec {map : MsgMap} {d : String → Nat} (h : rankOk map d = true)
    {k : String} {v : Message} (hm : (k, v) ∈ map) :
    (∀ q m2, v.parentId = some q → lookup map q = some m2 → d q < d k) ∧ d k < size map := by
  unfold rankOk at h
  rw [List.all_eq_true] at h
  have hh := h (k, v) hm
  rw [Bool.and_eq_true] at hh
  constructor
  · intro q m2 hp hq
    have h1 := hh.1
    simp only [hp, hq] at h1
    exact of_decide_eq_true h1
  · exact of_decide_eq_true hh.2

theorem keysCoherent_spec {map : MsgMap} (h : keysCoherent map = true)
    {k : String} {v : Message} (hm : (k, v) ∈ map) : v.id = k := by
  unfold keysCoherent at h
  rw [List.all_eq_true] at h
  simpa using h (k, v) hm

theorem getThreadLoop_none (map : MsgMap) (fuel : Nat) (acc : List Message) :
    getThreadLoop map fuel none acc = acc := by
  cases fuel <;> rfl

theorem getThreadLoop_emptyId (map : MsgMap) (fuel : Nat) (acc : List Message) :
    getThreadLoop map fuel (some "") acc = acc := by
  cases fuel with
  | zero => rfl
  | succ f => simp [getThreadLoop]

theorem getThreadLoop_getLast (map : MsgMap) :
    ∀ (fuel : Nat) (cur : Option String) (acc : List Message), acc ≠ [] →
      (getThreadLoop map fuel cur acc).getLast? = acc.getLast? := by
  intro fuel
  induction fuel with
  | zero => intro cur acc _; rfl
  | succ f ih =>
    intro cur acc h
    cases cur with
    | none => rfl
    | some cid =>
      by_cases hc : (cid == "") = true
      · simp [getThreadLoop, hc]
      · have hc' : (cid == "") = false := by simpa using hc
        cases hl : lookup map cid with
        | none => simp [getThreadLoop, hc', hl]
        | some msg =>
          have hstep : getThreadLoop map (f + 1) (some cid) acc =
              getThreadLoop map f msg.parentId (msg :: acc) := by
            simp [getThreadLoop, hc', hl]
          rw [hstep, ih msg.parentId (msg :: acc) (by simp)]
          cases acc with
          | nil => cases h rfl
          | cons a as => rw [List.getLast?_cons_cons]

theorem getThreadLoop_stopClean (map : MsgMap) (d : String → Nat)
    (hrank : rankOk map d = true) :
    ∀ (fuel : Nat) (cid : String) (msg : Message) (acc : List Message),
      (cid == "") = false → lookup map cid = some msg → d cid < fuel →
      ∃ first rest, getThreadLoop map fuel (some cid) acc = first :: rest ∧
        stopClean map first := by
  intro fuel
  induction fuel with
  | zero => intro cid msg acc _ _ hd; omega
  | succ f ih =>
    intro cid msg acc hc hl hd
    have hstep : getThreadLoop map (f + 1) (some cid) acc =
        getThreadLoop map f msg.parentId (msg :: acc) := by
      simp [getThreadLoop, hc, hl]
    rw [hstep]
    cases hp : msg.parentId with
    | none =>
      rw [getThreadLoop_none]
      exact ⟨msg, acc, rfl, Or.inl hp⟩
    | some q =>
      by_cases hq : (q == "") = true
      · have hq0 : q = "" := by simpa using hq
        subst hq0
        rw [getThreadLoop_emptyId]
        exact ⟨msg, acc, rfl, Or.inr (Or.inl hp)⟩
      · have hq' : (q == "") = false := by simpa using hq
        cases hlq : lookup map q with
        | none =>
          have hend : getThreadLoop map f (some q) (msg :: acc) = msg :: acc := by
            cases f with
            | zero => rfl
            | succ f2 => simp [getThreadLoop, hq', hlq]
          rw [hend]
          exact ⟨msg, acc, rfl, Or.inr (Or.inr ⟨q, hp, hlq⟩)⟩
        | some m2 =>
          have hmem := mem_of_lookup map cid msg hl
          have hdlt := (rankOk_spec hrank hmem).1 q m2 hp hlq
          exact ih q m2 (msg :: acc) hq' hlq (by omega)

/-- Claim C2 (counterexample): the projection of a mapping that stores a
node under the empty-string key, taken at that present headId, is the empty
sequence — JavaScript's `!headId` guard treats the empty string like null —
contradicting the claim that a present headId always yields a walk whose
last element's id equals headId. -/
theorem c2_counterexample :
    keyPresent emptyKeyMap "" = true ∧ getThread emptyKeyMap (some "") = [] := by
  constructor <;> rfl

/-- Claim C2 (amended): the projection returns the empty sequence when
headId is null, the empty string, or absent; for a present non-empty headId
in a mapping whose stored ids agree with their keys, the result's last
element's id equals headId; and on any acyclic mapping (witnessed by a rank
function) the walk stops cleanly at a node whose parentId is null, empty,
or names a missing node. -/
theorem c2_thread_projection :
    ∀ (map : MsgMap) (h : String) (d : String → Nat),
      getThread map none = [] ∧
      getThread map (some "") = [] ∧
      (lookup map h = none → getThread map (some h) = []) ∧
      ((h == "") = false → ∀ m, lookup map h = some m → keysCoherent map = true →
        (List.getLast? (getThread map (some h))).map Message.id = some h) ∧
      ((h == "") = false → ∀ m, lookup map h = some m → rankOk map d = true →
        ∃ first rest, getThread map (some h) = first :: rest ∧ stopClean map first) := by
  intro map h d
  refine ⟨rfl, rfl, ?_, ?_, ?_⟩
  · intro hnone
    simp only [getThread]
    by_cases hc : (h == "") = true
    · rw [if_pos hc]
    · rw [if_neg hc]
      simp only [hnone]
  · intro hc m hl hcoh
    have hstep : getThread map (some h) =
        getThreadLoop map (size map) m.parentId [m] := by
      simp only [getThread]
      rw [if_neg (by simp [hc])]
      simp only [hl]
      simp [getThreadLoop, hc, hl]
    rw [hstep, getThreadLoop_getLast map (size map) m.parentId [m] (by simp)]
    have hid : m.id = h := keysCoherent_spec hcoh (mem_of_lookup map h m hl)
    simp [hid]
  · intro hc m hl hrank
    have hd : d h < size map + 1 := by
      have := (rankOk_spec hrank (mem_of_lookup map h m hl)).2
      omega
    have hstep : getThread map (some h) =
        getThreadLoop map (size map + 1) (some h) [] := by
      simp only [getThread]
      rw [if_neg (by simp [hc])]
      simp only [hl]
    rw [hstep]
    exact getThreadLoop_stopClean map d hrank (size map + 1) h m [] hc hl hd

/-- Claim C2 witness: on a concrete two-node chain, the projection at head
k ends with the node whose id is k and starts at a clean root. -/
theorem c2_thread_projection_witness :
    (List.getLast? (getThread chainMap (some "k"))).map Message.id = some "k" ∧
    ∃ first rest, getThread chainMap (some "k") = first :: rest ∧
      stopClean chainMap first := by
  have h := c2_thread_projection chainMap "k" chainRank
  exact ⟨h.2.2.2.1 rfl _ rfl rfl, h.2.2.2.2 rfl _ rfl rfl⟩

/-! ## Claim C9: branch navigation -/

theorem findIdx?_lt_length {p : String → Bool} {l : List String} {i : Nat}
    (h : List.findIdx? p l = some i) : i < l.length :=
  (List.findIdx?_eq_some_iff_findIdx_eq.mp h).1

theorem clampedIndex_lt (dir : Direction) (i n : Nat) (hi : i < n) :
    clampedIndex dir i n < n := by
  cases dir <;> simp only [clampedIndex] <;> split_ifs <;> omega

theorem clampedIndex_next_last (i n : Nat) (_hi : i < n) (hlast : i + 1 = n) :
    clampedIndex Direction.next i n = i := by
  simp only [clampedIndex]
  split_ifs <;> omega

theorem clampedIndex_prev_first (n : Nat) (hn : 0 < n) :
    clampedIndex Direction.prev 0 n = 0 := by
  simp only [clampedIndex]
  split_ifs <;> omega

/-- Claim C9 (counterexample): node a is the sole child of r (no siblings)
and lies on the thread of head b, yet navigate(a, next) repoints the head
to c — the deepest last-child descendant of a — not a no-op, contradicting
"navigation is a no-op (head unchanged) when the node has no siblings". -/
theorem c9_counterexample :
    (lookup soleSiblingMap "r").map Message.childrenIds = some ["a"] ∧
    (getThread soleSiblingMap (some "b")).map Message.id = ["r", "a", "b"] ∧
    navigateBranch soleSiblingMap "a" Direction.next = some "c" ∧
    ("c" : String) ≠ "b" := by
  refine ⟨rfl, rfl, rfl, by decide⟩

/-- Claim C9 (amended): the adjacent index is clamped into
[0, siblingCount-1] with no wraparound — next on the last sibling and prev
on the first (including a sole sibling) re-select the same sibling — and
the returned head is the result of descending from the selected sibling
through the last child at every level until a missing node or leaf, which
equals the old head only when the head already is that leaf; no state
update at all happens exactly when the node is missing, has a null or
empty parentId, its parent is missing, or it is not listed in its parent's
childrenIds. -/
theorem c9_branch_navigation :
    ∀ (map : MsgMap) (msgId : String) (dir : Direction),
      (lookup map msgId = none → navigateBranch map msgId dir = none) ∧
      (∀ msg, lookup map msgId = some msg → msg.parentId = none →
        navigateBranch map msgId dir = none) ∧
      (∀ msg, lookup map msgId = some msg → msg.parentId = some "" →
        navigateBranch map msgId dir = none) ∧
      (∀ msg pid, lookup map msgId = some msg → msg.parentId = some pid →
        (pid == "") = false → lookup map pid = none →
        navigateBranch map msgId dir = none) ∧
      (∀ msg pid parent, lookup map msgId = some msg → msg.parentId = some pid →
        (pid == "") = false → lookup map pid = some parent →
        List.findIdx? (fun cid => cid == msgId) parent.childrenIds = none →
        navigateBranch map msgId dir = none) ∧
      (∀ msg pid parent i, lookup map msgId = some msg → msg.parentId = some pid →
        (pid == "") = false → lookup map pid = some parent →
        List.findIdx? (fun cid => cid == msgId) parent.childrenIds = some i →
        navigateBranch map msgId dir =
          some (descendLastLoop map (size map + 1)
            (parent.childrenIds.getD (clampedIndex dir i parent.childrenIds.length) "")) ∧
        clampedIndex dir i parent.childrenIds.length < parent.childrenIds.length ∧
        (dir = Direction.next → i + 1 = parent.childrenIds.length →
          clampedIndex dir i parent.childrenIds.length = i) ∧
        (dir = Direction.prev → i = 0 →
          clampedIndex dir i parent.childrenIds.length = 0)) ∧
      (∀ fuel ptr node, lookup map ptr = some node → node.childrenIds = [] →
        descendLastLoop map fuel ptr = ptr) ∧
      (∀ fuel ptr node lastChild, lookup map ptr = some node →
        node.childrenIds.getLast? = some lastChild →
        descendLastLoop map (fuel + 1) ptr = descendLastLoop map fuel lastChild) := by
  intro map msgId dir
  refine ⟨?_, ?_, ?_, ?_, ?_, ?_, ?_, ?_⟩
  · intro h
    simp [navigateBranch, h]
  · intro msg hl hp
    simp [navigateBranch, hl, hp]
  · intro msg hl hp
    simp [navigateBranch, hl, hp]
  · intro msg pid hl hp hpe hlp
    simp [navigateBranch, hl, hp, hpe, hlp]
  · intro msg pid parent hl hp hpe hlp hidx
    simp [navigateBranch, hl, hp, hpe, hlp, hidx]
  · intro msg pid parent i hl hp hpe hlp hidx
    have hlt : i < parent.childrenIds.length := findIdx?_lt_length hidx
    refine ⟨?_, clampedIndex_lt dir i _ hlt, ?_, ?_⟩
    · simp [navigateBranch, hl, hp, hpe, hlp, hidx]
    · intro hdir hlast
      subst hdir
      exact clampedIndex_next_last i _ hlt hlast
    · intro hdir hfirst
      subst hdir hfirst
      exact clampedIndex_prev_first _ (by omega)
  · intro fuel ptr node hl hc
    cases fuel with
    | zero => rfl
    | succ f => simp [descendLastLoop, hl, hc]
  · intro fuel ptr node lastChild hl hc
    simp [descendLastLoop, hl, hc]

/-- Claim C9 witness: on the concrete fixture, next from the last sibling c
stays on c (clamped, no wraparound) and the head becomes c's own leaf. -/
theorem c9_branch_navigation_witness :
    navigateBranch soleSiblingMap "c" Direction.next =
      some (descendLastLoop soleSiblingMap (size soleSiblingMap + 1)
        ((["b", "c"] : List String).getD
          (clampedIndex Direction.next 1 (["b", "c"] : List String).length) "")) ∧
    clampedIndex Direction.next 1 (["b", "c"] : List String).length <
      (["b", "c"] : List String).length ∧
    clampedIndex Direction.next 1 (["b", "c"] : List String).length = 1 := by
  have h := (c9_branch_navigation soleSiblingMap "c" Direction.next).2.2.2.2.2.1
    { id := "c", role := Role.model, parentId := some "a", childrenIds := [] } "a"
    { id := "a", role := Role.model, parentId := some "r", childrenIds := ["b", "c"] } 1
    rfl rfl rfl rfl rfl
  exact ⟨h.1, h.2.1, h.2.2.1 rfl rfl⟩

/-! ## Claim C7: bidirectional consistency under append sequences -/

theorem lookup_of_mem_nodup :
    ∀ {m : MsgMap}, (keys m).Nodup → ∀ {p : String × Message}, p ∈ m →
      lookup m p.1 = some p.2 := by
  intro m
  induction m with
  | nil => intro _ p hp; cases hp
  | cons x rest ih =>
    intro hnd p hp
    have hkeys : keys (x :: rest) = x.1 :: keys rest := rfl
    rw [hkeys] at hnd
    have hnd2 := List.nodup_cons.mp hnd
    cases hp with
    | head => exact lookup_cons_pos (by simp)
    | tail _ hmem =>
      by_cases hx : (x.1 == p.1) = true
      · exfalso
        have hx1 : x.1 = p.1 := by simpa using hx
        have hin : p.1 ∈ keys rest := by
          simp only [keys, List.mem_map]
          exact ⟨p, hmem, rfl⟩
        exact hnd2.1 (hx1 ▸ hin)
      · rw [lookup_cons_neg (by simpa using hx)]
        exact ih hnd2.2 hmem

theorem parentLinkOk_iff (m : MsgMap) :
    parentLinkOk m = true ↔
      ∀ p ∈ m, ∀ q, p.2.parentId = some q → keyPresent m q = true := by
  unfold parentLinkOk
  rw [List.all_eq_true]
  constructor
  · intro h p hp q hq
    have h2 := h p hp
    simp only [hq] at h2
    exact h2
  · intro h p hp
    cases hq : p.2.parentId with
    | none => simp
    | some q =>
      simp only [hq]
      exact h p hp q hq

theorem childLinkOk_iff (m : MsgMap) :
    childLinkOk m = true ↔
      ∀ p ∈ m, ∀ cid ∈ p.2.childrenIds,
        ∃ c, lookup m cid = some c ∧ c.parentId = some p.1 := by
  unfold childLinkOk
  rw [List.all_eq_true]
  constructor
  · intro h p hp cid hcid
    have h2 := h p hp
    rw [List.all_eq_true] at h2
    have h3 := h2 cid hcid
    cases hl : lookup m cid with
    | none => simp only [hl] at h3; cases h3
    | some c =>
      simp only [hl] at h3
      exact ⟨c, rfl, by simpa using h3⟩
  · intro h p hp
    rw [List.all_eq_true]
    intro cid hcid
    rcases h p hp cid hcid with ⟨c, hl, hpid⟩
    simp only [hl]
    simp [hpid]

theorem lookup_setKey_fresh (m : MsgMap) (node : Message) (k : String) :
    lookup (setKey m node.id node) k = if k = node.id then some node else lookup m k := by
  by_cases hk : k = node.id
  · subst hk
    rw [if_pos rfl, lookup_setKey_self]
  · rw [if_neg hk, lookup_setKey_ne m node.id k node (by simpa using hk)]

theorem keys_appendToTree (pid : Option String) (node : Message) (m : MsgMap)
    (hfresh : keyPresent m node.id = false) :
    keys (appendToTree pid node m) = keys m ++ [node.id] := by
  have hbase := keys_setKey_absent m node.id node hfresh
  unfold appendToTree
  cases pid with
  | none => exact hbase
  | some q =>
    by_cases hq : (q == "") = true
    · simp only [hq, if_true]
      exact hbase
    · have hq2 : (q == "") = false := by simpa using hq
      simp only [hq2, Bool.false_eq_true, if_false]
      cases hlq : lookup (setKey m node.id node) q with
      | none => exact hbase
      | some parent =>
        rw [keys_setKey_present _ _ _ (keyPresent_of_lookup_some hlq)]
        exact hbase

theorem keyPresent_appendToTree (pid : Option String) (node : Message) (m : MsgMap)
    (hfresh : keyPresent m node.id = false) (k : String) :
    keyPresent (appendToTree pid node m) k = true ↔
      (keyPresent m k = true ∨ k = node.id) := by
  rw [keyPresent_eq_mem_keys, keys_appendToTree pid node m hfresh, List.mem_append,
    keyPresent_eq_mem_keys]
  simp

theorem lookup_appendToTree_present (q : String) (node : Message) (m : MsgMap)
    (parent : Message) (hfresh : keyPresent m node.id = false) (hq : (q == "") = false)
    (hpar : lookup m q = some parent) (k : String) :
    lookup (appendToTree (some q) node m) k =
      if k = q then some { parent with childrenIds := parent.childrenIds ++ [node.id] }
      else if k = node.id then some node
      else lookup m k := by
  have hqne : q ≠ node.id := by
    intro hc
    rw [hc] at hpar
    rw [keyPresent_of_lookup_some hpar] at hfresh
    cases hfresh
  have hlq : lookup (setKey m node.id node) q = some parent := by
    rw [lookup_setKey_ne m node.id q node (by simpa using hqne)]
    exact hpar
  unfold appendToTree
  simp only [hq, Bool.false_eq_true, if_false, hlq]
  by_cases hk : k = q
  · subst hk
    rw [if_pos rfl, lookup_setKey_self]
  · rw [if_neg hk, lookup_setKey_ne _ _ _ _ (by simpa using hk)]
    by_cases hk2 : k = node.id
    · subst hk2
      rw [if_pos rfl, lookup_setKey_self]
    · rw [if_neg hk2, lookup_setKey_ne _ _ _ _ (by simpa using hk2)]

theorem keyPresent_setKey_fresh (node : Message) (m : MsgMap)
    (hfresh : keyPresent m node.id = false) (k : String) :
    keyPresent (setKey m node.id node) k = true ↔
      (keyPresent m k = true ∨ k = node.id) := by
  rw [keyPresent_eq_mem_keys, keys_setKey_absent m node.id node hfresh, List.mem_append,
    keyPresent_eq_mem_keys]
  simp

theorem setKey_preserves_inv (node : Message) (m : MsgMap)
    (hnd : (keys m).Nodup) (hpl : parentLinkOk m = true) (hcl : childLinkOk m = true)
    (hfresh : keyPresent m node.id = false) (hch : node.childrenIds = [])
    (hparOk : ∀ q, node.parentId = some q → keyPresent m q = true) :
    (keys (setKey m node.id node)).Nodup ∧
    parentLinkOk (setKey m node.id node) = true ∧
    childLinkOk (setKey m node.id node) = true := by
  have hnotin : node.id ∉ keys m := by
    intro hmem
    rw [(keyPresent_eq_mem_keys m node.id).mpr hmem] at hfresh
    cases hfresh
  have hndA : (keys (setKey m node.id node)).Nodup := by
    rw [keys_setKey_absent m node.id node hfresh]
    simp only [List.nodup_append, List.nodup_cons, List.nodup_nil]
    refine ⟨hnd, by simp, ?_⟩
    intro a ha hb
    simp only [List.mem_singleton] at hb
    exact hnotin (hb ▸ ha)
  have hmono : ∀ k, keyPresent m k = true → keyPresent (setKey m node.id node) k = true :=
    fun k hk => (keyPresent_setKey_fresh node m hfresh k).mpr (Or.inl hk)
  have hfreshlk : lookup m node.id = none := lookup_none_of_not_keyPresent hfresh
  have hplm := (parentLinkOk_iff m).mp hpl
  have hclm := (childLinkOk_iff m).mp hcl
  refine ⟨hndA, ?_, ?_⟩
  · rw [parentLinkOk_iff]
    intro p hp r hr
    have hA := lookup_of_mem_nodup hndA hp
    rw [lookup_setKey_fresh] at hA
    by_cases hk : p.1 = node.id
    · rw [if_pos hk, Option.some_inj] at hA
      rw [← hA] at hr
      exact hmono r (hparOk r hr)
    · rw [if_neg hk] at hA
      exact hmono r (hplm (p.1, p.2) (mem_of_lookup m p.1 p.2 hA) r hr)
  · rw [childLinkOk_iff]
    intro p hp cid hcid
    have hA := lookup_of_mem_nodup hndA hp
    rw [lookup_setKey_fresh] at hA
    by_cases hk : p.1 = node.id
    · rw [if_pos hk, Option.some_inj] at hA
      rw [← hA, hch] at hcid
      cases hcid
    · rw [if_neg hk] at hA
      rcases hclm (p.1, p.2) (mem_of_lookup m p.1 p.2 hA) cid hcid with ⟨c, hlc, hcp⟩
      have hcidne : cid ≠ node.id := by
        intro hcc
        rw [hcc, hfreshlk] at hlc
        cases hlc
      refine ⟨c, ?_, hcp⟩
      rw [lookup_setKey_fresh, if_neg hcidne]
      exact hlc

theorem appendToTree_link_preserves_inv (q : String) (node : Message) (m : MsgMap)
    (parent : Message)
    (hnd : (keys m).Nodup) (hpl : parentLinkOk m = true) (hcl : childLinkOk m = true)
    (hfresh : keyPresent m node.id = false) (hq : (q == "") = false)
    (hpar : lookup m q = some parent)
    (hpid : node.parentId = some q) (hch : node.childrenIds = []) :
    (keys (appendToTree (some q) node m)).Nodup ∧
    parentLinkOk (appendToTree (some q) node m) = true ∧
    childLinkOk (appendToTree (some q) node m) = true := by
  have hnotin : node.id ∉ keys m := by
    intro hmem
    rw [(keyPresent_eq_mem_keys m node.id).mpr hmem] at hfresh
    cases hfresh
  have hndA : (keys (appendToTree (some q) node m)).Nodup := by
    rw [keys_appendToTree (some q) node m hfresh]
    simp only [List.nodup_append, List.nodup_cons, List.nodup_nil]
    refine ⟨hnd, by simp, ?_⟩
    intro a ha hb
    simp only [List.mem_singleton] at hb
    exact hnotin (hb ▸ ha)
  have hmono : ∀ k, keyPresent m k = true →
      keyPresent (appendToTree (some q) node m) k = true :=
    fun k hk => (keyPresent_appendToTree (some q) node m hfresh k).mpr (Or.inl hk)
  have hfreshlk : lookup m node.id = none := lookup_none_of_not_keyPresent hfresh
  have hplm := (parentLinkOk_iff m).mp hpl
  have hclm := (childLinkOk_iff m).mp hcl
  have hlkA := lookup_appendToTree_present q node m parent hfresh hq hpar
  refine ⟨hndA, ?_, ?_⟩
  · rw [parentLinkOk_iff]
    intro p hp r hr
    have hA := lookup_of_mem_nodup hndA hp
    rw [hlkA p.1] at hA
    by_cases hk : p.1 = q
    · rw [if_pos hk, Option.some_inj] at hA
      rw [← hA] at hr
      simp only at hr
      exact hmono r (hplm (q, parent) (mem_of_lookup m q parent hpar) r hr)
    · rw [if_neg hk] at hA
      by_cases hk2 : p.1 = node.id
      · rw [if_pos hk2, Option.some_inj] at hA
        rw [← hA, hpid, Option.some_inj] at hr
        rw [← hr]
        exact hmono q (keyPresent_of_lookup_some hpar)
      · rw [if_neg hk2] at hA
        exact hmono r (hplm (p.1, p.2) (mem_of_lookup m p.1 p.2 hA) r hr)
  · rw [childLinkOk_iff]
    intro p hp cid hcid
    have hA := lookup_of_mem_nodup hndA hp
    rw [hlkA p.1] at hA
    by_cases hk : p.1 = q
    · rw [if_pos hk, Option.some_inj] at hA
      rw [← hA] at hcid
      simp only [List.mem_append, List.mem_singleton] at hcid
      rcases hcid with hold | hnew
      · rcases hclm (q, parent) (mem_of_lookup m q parent hpar) cid hold with ⟨c, hlc, hcp⟩
        have hcidne : cid ≠ node.id := by
          intro hcc
          rw [hcc, hfreshlk] at hlc
          cases hlc
        by_cases hcq : cid = q
        · have hcparent : c = parent := by
            rw [hcq, hpar, Option.some_inj] at hlc
            exact hlc.symm
          refine ⟨{ parent with childrenIds := parent.childrenIds ++ [node.id] }, ?_, ?_⟩
          · rw [hlkA cid, if_pos hcq]
          · simp only
            rw [← hcparent]
            rw [hcp, hk]
        · refine ⟨c, ?_, by rw [hcp, hk]⟩
          rw [hlkA cid, if_neg hcq, if_neg hcidne]
          exact hlc
      · refine ⟨node, ?_, by rw [hpid, hk]⟩
        rw [hlkA cid, hnew]
        have hqne : node.id ≠ q := by
          intro hc
          rw [← hc] at hpar
          rw [keyPresent_of_lookup_some hpar] at hfresh
          cases hfresh
        rw [if_neg hqne, if_pos rfl]
    · rw [if_neg hk] at hA
      by_cases hk2 : p.1 = node.id
      · rw [if_pos hk2, Option.some_inj] at hA
        rw [← hA, hch] at hcid
        cases hcid
      · rw [if_neg hk2] at hA
        rcases hclm (p.1, p.2) (mem_of_lookup m p.1 p.2 hA) cid hcid with ⟨c, hlc, hcp⟩
        have hcidne : cid ≠ node.id := by
          intro hcc
          rw [hcc, hfreshlk] at hlc
          cases hlc
        by_cases hcq : cid = q
        · have hcparent : c = parent := by
            rw [hcq, hpar, Option.some_inj] at hlc
            exact hlc.symm
          refine ⟨{ parent with childrenIds := parent.childrenIds ++ [node.id] }, ?_, ?_⟩
          · rw [hlkA cid, if_pos hcq]
          · simp only
            rw [← hcparent]
            exact hcp
        · refine ⟨c, ?_, hcp⟩
          rw [hlkA cid, if_neg hcq, if_neg hcidne]
          exact hlc

theorem appendToTree_preserves_inv (pid : Option String) (node : Message) (m : MsgMap)
    (hnd : (keys m).Nodup) (hpl : parentLinkOk m = true) (hcl : childLinkOk m = true)
    (hfresh : keyPresent m node.id = false)
    (hpid : node.parentId = pid) (hch : node.childrenIds = [])
    (hpar : pid = none ∨ ∃ q, pid = some q ∧ keyPresent m q = true) :
    (keys (appendToTree pid node m)).Nodup ∧
    parentLinkOk (appendToTree pid node m) = true ∧
    childLinkOk (appendToTree pid node m) = true := by
  rcases hpar with hno | ⟨q, hqeq, hqpres⟩
  · subst hno
    have hform : appendToTree none node m = setKey m node.id node := rfl
    rw [hform]
    exact setKey_preserves_inv node m hnd hpl hcl hfresh hch
      (fun r hr => by rw [hpid] at hr; cases hr)
  · subst hqeq
    by_cases hq : (q == "") = true
    · have hq0 : q = "" := by simpa using hq
      subst hq0
      have hform : appendToTree (some "") node m = setKey m node.id node := by
        simp [appendToTree]
      rw [hform]
      refine setKey_preserves_inv node m hnd hpl hcl hfresh hch ?_
      intro r hr
      rw [hpid, Option.some_inj] at hr
      rw [← hr]
      exact hqpres
    · have hq2 : (q == "") = false := by simpa using hq
      have hsome : (lookup m q).isSome = true := by
        rw [← keyPresent_iff_lookup]
        exact hqpres
      rcases Option.isSome_iff_exists.mp hsome with ⟨parent, hpar2⟩
      exact appendToTree_link_preserves_inv q node m parent hnd hpl hcl hfresh hq2 hpar2
        hpid hch

theorem goodOps_preserves_inv :
    ∀ (ops : List (Option String × Message)) (m : MsgMap),
      (keys m).Nodup → parentLinkOk m = true → childLinkOk m = true →
      goodOps m ops = true →
      (keys (applyAppends ops m)).Nodup ∧ parentLinkOk (applyAppends ops m) = true ∧
        childLinkOk (applyAppends ops m) = true := by
  intro ops
  induction ops with
  | nil =>
    intro m h1 h2 h3 _
    exact ⟨h1, h2, h3⟩
  | cons op rest ih =>
    intro m h1 h2 h3 hg
    unfold goodOps at hg
    rw [Bool.and_eq_true, Bool.and_eq_true, Bool.and_eq_true, Bool.and_eq_true] at hg
    obtain ⟨⟨⟨⟨hpid, hch⟩, hfresh⟩, hparm⟩, hrest⟩ := hg
    have hpid2 : op.2.parentId = op.1 := by simpa using hpid
    have hch2 : op.2.childrenIds = [] := by simpa using hch
    have hfresh2 : keyPresent m op.2.id = false := by
      cases hkp : keyPresent m op.2.id with
      | false => rfl
      | true => rw [hkp] at hfresh; cases hfresh
    have hpar2 : op.1 = none ∨ ∃ q, op.1 = some q ∧ keyPresent m q = true := by
      cases ho : op.1 with
      | none => exact Or.inl rfl
      | some q =>
        rw [ho] at hparm
        exact Or.inr ⟨q, rfl, hparm⟩
    have step := appendToTree_preserves_inv op.1 op.2 m h1 h2 h3 hfresh2 hpid2 hch2 hpar2
    have happly : applyAppends (op :: rest) m = applyAppends rest (appendToTree op.1 op.2 m) :=
      rfl
    rw [happly]
    exact ih (appendToTree op.1 op.2 m) step.1 step.2.1 step.2.2 hrest

/-- Claim C7 (counterexample): appending a node whose given parentId is
absent from the mapping leaves the node's parentId field dangling (pointing
at a key that is not in the mapping), so the claimed invariant "every
node's parentId is either null or present as a key" fails for this append
sequence, even though the childrenIds link is omitted as described. -/
theorem c7_counterexample :
    bidirConsistent (applyAppends danglingAppendOps []) = false ∧
    lookup (applyAppends danglingAppendOps []) "x" =
      some { id := "x", role := Role.user, parentId := some "ghost", childrenIds := [] } ∧
    keyPresent (applyAppends danglingAppendOps []) "ghost" = false := by
  refine ⟨rfl, rfl, rfl⟩

/-- Claim C7 (amended): for every append sequence from the empty mapping in
which each appended node carries the given parentId, starts with no
children, has a fresh id, and names a parent that is null or present at
append time, the resulting mapping is bidirectionally consistent; an append
whose non-null parentId is absent is tolerated as an orphaned root — the
childrenIds link is simply omitted — but its parentId field keeps the
dangling reference. -/
theorem c7_append_bidir_consistency :
    (∀ ops : List (Option String × Message), goodOps [] ops = true →
      bidirConsistent (applyAppends ops []) = true) ∧
    (∀ (q : String) (node : Message) (m : MsgMap), (q == "") = false →
      lookup (setKey m node.id node) q = none →
      appendToTree (some q) node m = setKey m node.id node) := by
  constructor
  · intro ops hg
    have h := goodOps_preserves_inv ops [] (by simp [keys]) rfl rfl hg
    unfold bidirConsistent
    rw [h.2.1, h.2.2]
    rfl
  · intro q node m hq hl
    simp [appendToTree, hq, hl]

/-- Claim C7 witness: a concrete two-append sequence (root, then child)
yields a bidirectionally consistent mapping, and a dangling append omits
the parent link. -/
theorem c7_append_bidir_consistency_witness :
    bidirConsistent (applyAppends sampleOps []) = true ∧
    appendToTree (some "ghost")
        { id := "x", role := Role.user, parentId := some "ghost", childrenIds := [] } [] =
      setKey []
        ({ id := "x", role := Role.user, parentId := some "ghost", childrenIds := [] } : Message).id
        { id := "x", role := Role.user, parentId := some "ghost", childrenIds := [] } := by
  constructor
  · exact c7_append_bidir_consistency.1 sampleOps rfl
  · exact c7_append_bidir_consistency.2 "ghost"
      { id := "x", role := Role.user, parentId := some "ghost", childrenIds := [] } [] rfl rfl

/-! ## Claim C8: OpenAI-compatible stream parsing -/

theorem splitNL_ne_nil (l : List Char) : splitNL l ≠ [] := by
  cases l with
  | nil => simp [splitNL]
  | cons c rest =>
    simp only [splitNL]
    by_cases hc : c = '\n'
    · simp [hc]
    · simp only [hc, if_false]
      cases hr : splitNL rest with
      | nil => simp
      | cons seg segs => simp

theorem splitNL_cons_ne (c : Char) (l : List Char) (hc : ¬ c = '\n') :
    splitNL (c :: l) = consHead [c] (splitNL l) := by
  simp only [splitNL, hc, if_false]
  cases hr : splitNL l with
  | nil => rfl
  | cons seg segs => rfl

theorem splitNL_cons_nl (l : List Char) :
    splitNL ('\n' :: l) = [] :: splitNL l := by
  simp [splitNL]

theorem splitNL_append (a b : List Char) :
    splitNL (a ++ b) =
      (splitNL a).dropLast ++ consHead ((splitNL a).getLastD []) (splitNL b) := by
  induction a with
  | nil =>
    simp only [List.nil_append, splitNL, List.dropLast_nil, List.getLastD]
    cases hb : splitNL b with
    | nil => exact absurd hb (splitNL_ne_nil b)
    | cons seg segs => simp [consHead]
  | cons c a ih =>
    by_cases hc : c = '\n'
    · subst hc
      rw [List.cons_append, splitNL_cons_nl, splitNL_cons_nl, ih]
      cases hs : splitNL a with
      | nil => exact absurd hs (splitNL_ne_nil a)
      | cons s ss => rfl
    · rw [List.cons_append, splitNL_cons_ne c _ hc, splitNL_cons_ne c _ hc, ih]
      cases hs : splitNL a with
      | nil => exact absurd hs (splitNL_ne_nil a)
      | cons s ss =>
        cases ss with
        | nil =>
          cases hb : splitNL b with
          | nil => exact absurd hb (splitNL_ne_nil b)
          | cons t ts => simp [consHead]
        | cons s2 ss2 => simp [consHead, List.getLastD_cons]

theorem splitNL_no_nl (b : List Char) (h : ∀ c ∈ b, c ≠ '\n') : splitNL b = [b] := by
  induction b with
  | nil => rfl
  | cons c rest ih =>
    have hc : ¬ c = '\n' := h c (by simp)
    rw [splitNL_cons_ne c rest hc, ih (fun x hx => h x (List.mem_cons_of_mem c hx))]
    rfl

theorem splitNL_getLastD_no_nl (l : List Char) :
    ∀ c ∈ (splitNL l).getLastD [], c ≠ '\n' := by
  induction l with
  | nil => intro c hc; cases hc
  | cons ch rest ih =>
    by_cases hch : ch = '\n'
    · subst hch
      rw [splitNL_cons_nl]
      cases hs : splitNL rest with
      | nil => exact absurd hs (splitNL_ne_nil rest)
      | cons s ss =>
        rw [hs] at ih
        simpa using ih
    · rw [splitNL_cons_ne _ _ hch]
      cases hs : splitNL rest with
      | nil => exact absurd hs (splitNL_ne_nil rest)
      | cons s ss =>
        rw [hs] at ih
        cases ss with
        | nil =>
          intro c hc
          simp only [consHead, List.getLastD] at hc ⊢
          rcases List.mem_cons.mp (by simpa using hc) with hh | hm
          · subst hh; exact hch
          · exact ih c (by simpa using hm)
        | cons s2 ss2 =>
          intro c hc
          simp only [consHead] at hc
          rw [List.getLastD_cons] at hc
          rw [List.getLastD_cons] at ih
          exact ih c hc

theorem getLastD_append_ne (l T : List (List Char)) (h : T ≠ []) :
    (l ++ T).getLastD [] = T.getLastD [] := by
  rcases List.exists_cons_of_ne_nil h with ⟨t, ts, rfl⟩
  rw [List.getLastD_eq_getLast?, List.getLastD_eq_getLast?, List.getLast?_append]
  cases hl : (t :: ts).getLast? with
  | none => exact absurd (List.getLast?_eq_none_iff.mp hl) (by simp)
  | some x => simp [Option.or]

theorem streamRun_foldl (jsonParse : String → Option JVal) :
    ∀ (chunks : List (List Char)) (b : List Char) (ls : OAILineState),
      (∀ c ∈ b, c ≠ '\n') →
      List.foldl (chunkStep jsonParse) ⟨b, ls⟩ chunks =
        ⟨(splitNL (b ++ chunks.flatten)).getLastD [],
         linesRun jsonParse ls (splitNL (b ++ chunks.flatten)).dropLast⟩ := by
  intro chunks
  induction chunks with
  | nil =>
    intro b ls hb
    rw [List.foldl_nil, List.flatten_nil, List.append_nil, splitNL_no_nl b hb]
    rfl
  | cons ch rest ih =>
    intro b ls hb
    rw [List.foldl_cons]
    have hb2 : ∀ c ∈ (splitNL (b ++ ch)).getLastD [], c ≠ '\n' :=
      splitNL_getLastD_no_nl (b ++ ch)
    have hstep : chunkStep jsonParse ⟨b, ls⟩ ch =
        ⟨(splitNL (b ++ ch)).getLastD [],
         linesRun jsonParse ls (splitNL (b ++ ch)).dropLast⟩ := rfl
    rw [hstep, ih _ _ hb2]
    have hT : splitNL ((splitNL (b ++ ch)).getLastD [] ++ rest.flatten) =
        consHead ((splitNL (b ++ ch)).getLastD []) (splitNL rest.flatten) := by
      rw [splitNL_append, splitNL_no_nl _ hb2]
      rfl
    have hSplit : splitNL (b ++ (ch :: rest).flatten) =
        (splitNL (b ++ ch)).dropLast ++
          splitNL ((splitNL (b ++ ch)).getLastD [] ++ rest.flatten) := by
      rw [List.flatten_cons, ← List.append_assoc, splitNL_append (b ++ ch) rest.flatten, hT]
    have hTne : splitNL ((splitNL (b ++ ch)).getLastD [] ++ rest.flatten) ≠ [] :=
      splitNL_ne_nil _
    rw [hSplit, getLastD_append_ne _ _ hTne, List.dropLast_append_of_ne_nil _ hTne]
    simp only [linesRun, List.foldl_append]

theorem lineStep_of_done (jsonParse : String → Option JVal) (st : OAILineState)
    (line : List Char) (h : st.done = true) : lineStep jsonParse st line = st := by
  unfold lineStep
  rw [if_pos h]

theorem linesRun_of_done (jsonParse : String → Option JVal) (st : OAILineState)
    (h : st.done = true) : ∀ ls, linesRun jsonParse st ls = st := by
  intro ls
  induction ls with
  | nil => rfl
  | cons l rest ih =>
    unfold linesRun at ih ⊢
    rw [List.foldl_cons, lineStep_of_done jsonParse st l h]
    exact ih

/-- Claim C8 (confirmed): the OpenAI-compatible stream parser (1) buffers
input until a full line is available — its outcome depends only on the
concatenation of the delivered byte chunks; (2) ignores lines not starting
with 'data: '; (3) terminates immediately on the exact line 'data: [DONE]',
processing nothing afterwards; and (4) skips a data line whose payload
fails JSON parsing with no chunk emitted and no abort, processing
subsequent lines normally. -/
theorem c8_stream_line_parsing :
    ∀ jsonParse : String → Option JVal,
      (∀ inA inB : List (List Char), inA.flatten = inB.flatten →
        streamRun jsonParse inA = streamRun jsonParse inB) ∧
      (∀ (st : OAILineState) (line : List Char), st.done = false →
        List.isPrefixOf ("data: ").toList (trimChars line) = false →
        lineStep jsonParse st line = st) ∧
      (∀ (st : OAILineState) (line : List Char),
        trimChars line = ("data: [DONE]").toList →
        (lineStep jsonParse st line).done = true ∧
        (lineStep jsonParse st line).emitted = st.emitted ∧
        (lineStep jsonParse st line).acc = st.acc ∧
        (∀ post, linesRun jsonParse (lineStep jsonParse st line) post =
          lineStep jsonParse st line)) ∧
      (∀ (st : OAILineState) (line : List Char), st.done = false →
        List.isPrefixOf ("data: ").toList (trimChars line) = true →
        ((trimChars line) == ("data: [DONE]").toList) = false →
        jsonParse (String.mk ((trimChars line).drop 6)) = none →
        lineStep jsonParse st line = st ∧
        (∀ rest, linesRun jsonParse st (line :: rest) = linesRun jsonParse st rest)) := by
  intro jsonParse
  refine ⟨?_, ?_, ?_, ?_⟩
  · intro inA inB hflat
    unfold streamRun
    rw [streamRun_foldl jsonParse inA [] ⟨[], [], false⟩ (by intro c hc; cases hc),
      streamRun_foldl jsonParse inB [] ⟨[], [], false⟩ (by intro c hc; cases hc), hflat]
  · intro st line hd hns
    unfold lineStep
    rw [if_neg (by simp [hd]), if_pos (by rw [hns]; rfl)]
  · intro st line hdone
    by_cases hd : st.done = true
    · have hid := lineStep_of_done jsonParse st line hd
      rw [hid]
      exact ⟨hd, rfl, rfl, linesRun_of_done jsonParse st hd⟩
    · have hd2 : st.done = false := by simpa using hd
      have hstarts : List.isPrefixOf ("data: ").toList (trimChars line) = true := by
        rw [hdone]
        rfl
      have hstep : lineStep jsonParse st line = { st with done := true } := by
        unfold lineStep
        rw [if_neg (by simp [hd2]), if_neg (by rw [hstarts]; decide),
          if_pos (by rw [hdone, beq_self_eq_true])]
      rw [hstep]
      exact ⟨rfl, rfl, rfl, linesRun_of_done jsonParse _ rfl⟩
  · intro st line hd hstarts hnd hp
    have hstep : lineStep jsonParse st line = st := by
      unfold lineStep
      rw [if_neg (by simp [hd]), if_neg (by rw [hstarts]; decide),
        if_neg (by rw [hnd]; decide), hp]
    refine ⟨hstep, ?_⟩
    intro rest
    unfold linesRun
    rw [List.foldl_cons, hstep]

/-- Claim C8 witness: a split delivery of one data line equals its one-shot
delivery; a junk line, the DONE sentinel, and an unparseable payload each
leave the parser state unchanged (the latter letting later lines proceed). -/
theorem c8_stream_line_parsing_witness :
    streamRun (fun _ => none) [("da").toList, ("ta: x" ++ "\n").toList] =
      streamRun (fun _ => none) [("data: x" ++ "\n").toList] ∧
    lineStep (fun _ => none) ⟨[], [], false⟩ ("junk").toList = ⟨[], [], false⟩ ∧
    (lineStep (fun _ => none) ⟨[], [], false⟩ ("data: [DONE]").toList).done = true ∧
    lineStep (fun _ => none) ⟨[], [], false⟩ ("data: nope").toList = ⟨[], [], false⟩ := by
  have h := c8_stream_line_parsing (fun _ => none)
  refine ⟨h.1 _ _ (by decide), h.2.1 _ _ rfl (by decide), (h.2.2.1 _ _ (by decide)).1,
    (h.2.2.2 _ _ rfl (by decide) (by decide) rfl).1⟩

end GeBrain
